import Mathlib

/-
Verification development for the go-ringbuffer repository.

The definitions below are a shallow embedding of src/ringbuffer.go (the
canonical implementation; the files under src/unnamed are near-duplicate
historical revisions of the same component, per spec section 9).

Modelling decisions:
  * Bytes are modelled as Nat; byte slices as List Nat.
  * The underlying io.Reader collaborator (spec section 6: "read up to N
    bytes, signal end-of-stream or error") is modelled by Source: a list of
    remaining bytes, a per-call chunk limit (0 = unlimited, which is exactly
    bytes.Reader as used by the repository's test), and a terminal status
    (end-of-stream or a fatal error) reported once the data runs out.
  * Go runtime panics (the explicit overflow/underflow panics in
    writeBytes/readBytes/skip, and the integer-divide-by-zero panic of
    the cursor arithmetic "% cap(rb.buffer)" when the capacity is 0) are
    modelled with Except RBPanic.
  * The Read loop of src/ringbuffer.go:220 is modelled with explicit fuel;
    pLen + 2 calls always suffice because every executed iteration either
    returns or completes the request (proved where needed).
  * The mutexes/atomics only serialize calls; the sequential semantics
    embedded here is the semantics of one serialized call sequence.
-/

namespace RingModel

/-- Error values observable through the public API: io.EOF,
io.ErrShortWrite, ringbuffer.ErrBufferFull, and an arbitrary fatal
(non-EOF) source error. -/
inductive GoErr where
  | eof
  | shortWrite
  | bufferFull
  | fatal
  deriving DecidableEq, Repr

/-- Go runtime panics reachable in ringbuffer.go, plus a fuel marker for
the Read loop (never produced with sufficient fuel). -/
inductive RBPanic where
  | overflow
  | underflow
  | divByZero
  | outOfFuel
  deriving DecidableEq, Repr

/-- Terminal status of the underlying source once its bytes run out. -/
inductive SrcTerminal where
  | eof
  | fatal
  deriving DecidableEq, Repr

/-- Model of the external io.Reader collaborator (spec section 6): data is
the sequence of bytes it will deliver; chunk caps the bytes returned by a
single read call (0 = no cap, i.e. bytes.Reader as used by the repository
test); term is the status reported once data is exhausted. -/
structure Source where
  data : List Nat
  chunk : Nat
  term : SrcTerminal
  deriving DecidableEq, Repr

def SrcTerminal.toErr : SrcTerminal → GoErr
  | .eof => .eof
  | .fatal => .fatal

/-- How many bytes the source will hand over for a request of k bytes. -/
def Source.grant (s : Source) (k : Nat) : Nat :=
  if s.chunk = 0 then k else min k s.chunk

/-- One call of the source's read capability: (bytes, status, new source).
With data left it returns up to grant k bytes and no error; with no data
left it returns 0 bytes and its terminal status, repeatably. -/
def Source.read (s : Source) (k : Nat) : List Nat × Option GoErr × Source :=
  if s.data = [] then ([], some s.term.toErr, s)
  else (s.data.take (s.grant k), none,
        { s with data := s.data.drop (s.grant k) })

/-- The RingBuffer struct of src/ringbuffer.go:26 (the prefill staging
slice is write-only scratch whose contents flow directly into writeBytes,
so it needs no field here; the mutexes serialize calls and need no field
in a sequential semantics). -/
structure RingBuffer where
  rd : Option Source
  rdErr : Option GoErr
  buffer : List Nat
  head : Nat
  tail : Nat
  filled : Bool
  deriving DecidableEq, Repr

namespace RingBuffer

/-- unlockedCapacity, src/ringbuffer.go:82: free space; 0 when filled,
else cap - (tail - head) interpreted with the sign fix of the Go code. -/
def unlockedCapacity (rb : RingBuffer) : Nat :=
  if rb.filled then 0
  else if rb.tail < rb.head then rb.head - rb.tail
  else rb.buffer.length - (rb.tail - rb.head)

/-- unlockedLen, src/ringbuffer.go:101: valid bytes = cap - capacity. -/
def unlockedLen (rb : RingBuffer) : Nat :=
  rb.buffer.length - rb.unlockedCapacity

/-- Go's copy(l[i:], xs): overwrite l at offset i with xs, truncating at
the end of l, never changing l's length. -/
def listWrite (l : List Nat) (i : Nat) (xs : List Nat) : List Nat :=
  l.take i ++ xs.take (l.length - i) ++ l.drop (i + min xs.length (l.length - i))

/-- writeBytes, src/ringbuffer.go:112: overflow check against the raw
delta (not consulting filled, exactly as the Go code), the two-copy
wraparound write, tail advance modulo cap (divide-by-zero when cap = 0),
and setting filled when the cursors converge. -/
def writeBytes (rb : RingBuffer) (data : List Nat) : Except RBPanic RingBuffer :=
  let C := rb.buffer.length
  let delta := if rb.tail < rb.head then rb.head - rb.tail else C - (rb.tail - rb.head)
  if delta < data.length then .error .overflow
  else if C = 0 then .error .divByZero
  else
    let buf :=
      if rb.tail + data.length ≤ C then listWrite rb.buffer rb.tail data
      else
        let pivot := C - rb.tail
        listWrite (listWrite rb.buffer rb.tail (data.take pivot)) 0 (data.drop pivot)
    let t := (rb.tail + data.length) % C
    .ok { rb with buffer := buf, tail := t,
                  filled := if rb.head = t then true else rb.filled }

/-- readBytes, src/ringbuffer.go:199: underflow check, two-copy wraparound
read of n bytes from head, head advance modulo cap, filled cleared. -/
def readBytes (rb : RingBuffer) (n : Nat) : Except RBPanic (List Nat × RingBuffer) :=
  if rb.unlockedLen < n then .error .underflow
  else if rb.buffer.length = 0 then .error .divByZero
  else
    let C := rb.buffer.length
    let out :=
      if rb.head + n ≤ C then (rb.buffer.drop rb.head).take n
      else (rb.buffer.drop rb.head).take (C - rb.head) ++ rb.buffer.take (n - (C - rb.head))
    .ok (out, { rb with head := (rb.head + n) % C, filled := false })

/-- peekBytes, src/ringbuffer.go:259: like readBytes but without the
cursor update (and hence without any modulo, so no divide-by-zero). -/
def peekBytes (rb : RingBuffer) (n : Nat) : Except RBPanic (List Nat) :=
  if rb.unlockedLen < n then .error .underflow
  else
    let C := rb.buffer.length
    .ok (if rb.head + n ≤ C then (rb.buffer.drop rb.head).take n
         else (rb.buffer.drop rb.head).take (C - rb.head) ++ rb.buffer.take (n - (C - rb.head)))

/-- skip, src/ringbuffer.go:154: overflow check then head advance modulo
cap, filled cleared unconditionally. -/
def skip (rb : RingBuffer) (n : Nat) : Except RBPanic RingBuffer :=
  if rb.unlockedLen < n then .error .overflow
  else if rb.buffer.length = 0 then .error .divByZero
  else .ok { rb with head := (rb.head + n) % rb.buffer.length, filled := false }

/-- Skip, src/ringbuffer.go:163: public discard, capping n at the valid
length before calling skip. -/
def Skip (rb : RingBuffer) (n : Nat) : Except RBPanic RingBuffer :=
  rb.skip (min n rb.unlockedLen)

/-- prefillBuffer, src/ringbuffer.go:56: no-op once rdErr is recorded or
without a source or without free capacity; otherwise one source read of up
to unlockedCapacity bytes: a non-EOF error is recorded (the source
reference is kept); otherwise the bytes are written (also when 0 bytes
came back with EOF) and on EOF the source reference is dropped and io.EOF
recorded. -/
def prefillBuffer (rb : RingBuffer) : Except RBPanic RingBuffer :=
  match rb.rdErr with
  | some _ => .ok rb
  | none =>
    match rb.rd with
    | none => .ok rb
    | some src =>
      if rb.unlockedCapacity ≠ 0 then
        let r := src.read rb.unlockedCapacity
        match r.2.1 with
        | some .eof =>
          (rb.writeBytes r.1).map fun rb1 => { rb1 with rd := none, rdErr := some .eof }
        | some e => .ok { rb with rd := some r.2.2, rdErr := some e }
        | none =>
          (rb.writeBytes r.1).map fun rb1 => { rb1 with rd := some r.2.2 }
      else .ok rb

/-- Write, src/ringbuffer.go:173: full buffer rejects with ErrBufferFull;
otherwise writes min(len(data), capacity) bytes and reports ErrShortWrite
when not everything was accepted. -/
def Write (rb : RingBuffer) (data : List Nat) : Except RBPanic (Nat × Option GoErr × RingBuffer) :=
  if rb.filled then .ok (0, some .bufferFull, rb)
  else
    let nbytes := min data.length rb.unlockedCapacity
    (rb.writeBytes (data.take nbytes)).map fun rb1 =>
      (nbytes, if nbytes ≠ data.length then some .shortWrite else none, rb1)

/-- The for-loop of Read, src/ringbuffer.go:225, with the post-loop code
of lines 252-256 as the terminating branch. acc holds the bytes written to
p so far (p[0:nbytes]); the result list is the bytes the returned count
covers (the fatal-error return reports count 0). -/
def readLoop : Nat → RingBuffer → Nat → Nat → List Nat →
    Except RBPanic (List Nat × Option GoErr × RingBuffer)
  | 0, _, _, _, _ => .error .outOfFuel
  | fuel + 1, rb, pLen, nbytes, acc =>
    if nbytes < pLen then
      match rb.prefillBuffer with
      | .error p => .error p
      | .ok rb1 =>
        let rblen0 := rb1.unlockedLen
        if rblen0 = 0 ∧ rb1.rdErr ≠ none then
          if rb1.rdErr = some .eof then .ok (acc, some .eof, rb1)
          else .ok ([], rb1.rdErr, rb1)
        else
          let rblen := min rblen0 (pLen - nbytes)
          match rb1.readBytes rblen with
          | .error p => .error p
          | .ok (out, rb2) =>
            if rb2.unlockedLen = 0 then .ok (acc ++ out, none, rb2)
            else readLoop fuel rb2 pLen (nbytes + rblen) (acc ++ out)
    else
      if nbytes ≠ 0 then .ok (acc, none, rb)
      else .ok ([], rb.rdErr, rb)

/-- Read, src/ringbuffer.go:220, for a destination slice of length pLen.
Fuel pLen + 2 always suffices (each executed iteration either returns or
completes the request). -/
def Read (rb : RingBuffer) (pLen : Nat) : Except RBPanic (List Nat × Option GoErr × RingBuffer) :=
  readLoop (pLen + 2) rb pLen 0 []

/-- Peek, src/ringbuffer.go:277: unconditionally prefill, cap the length
at the valid length, copy without consuming, return the sticky error. -/
def Peek (rb : RingBuffer) (pLen : Nat) : Except RBPanic (List Nat × Option GoErr × RingBuffer) :=
  match rb.prefillBuffer with
  | .error p => .error p
  | .ok rb1 =>
    let rblen := min rb1.unlockedLen pLen
    (rb1.peekBytes rblen).map fun out => (out, rb1.rdErr, rb1)

end RingBuffer

/-- New, src/ringbuffer.go:42: a zeroed buffer of the given size, no
source, no error, cursors at 0. -/
def New (size : Nat) : RingBuffer :=
  { rd := none, rdErr := none, buffer := List.replicate size 0,
    head := 0, tail := 0, filled := false }

/-- NewReaderSize, src/ringbuffer.go:48: New plus the source, then one
eager prefill. -/
def NewReaderSize (src : Source) (size : Nat) : Except RBPanic RingBuffer :=
  RingBuffer.prefillBuffer { New size with rd := some src }

/-- Well-formedness of a ring buffer state: cursors inside the storage
(forcing a positive capacity) and the filled flag only for converged
cursors. Preserved by all operations and true of every state reachable
from New/NewReaderSize with positive size. -/
def RingBuffer.WF (rb : RingBuffer) : Prop :=
  rb.head < rb.buffer.length ∧ rb.tail < rb.buffer.length ∧
    (rb.filled = true → rb.head = rb.tail)

instance (rb : RingBuffer) : Decidable rb.WF := by
  unfold RingBuffer.WF; infer_instance

/-- The storage rotated so that the head cursor comes first; the valid
bytes are its first unlockedLen entries. -/
def RingBuffer.rot (rb : RingBuffer) : List Nat :=
  rb.buffer.drop rb.head ++ rb.buffer.take rb.head

/-- The valid bytes of the buffer in consumption order: the unlockedLen
bytes starting at the head cursor, wrapping at the end of storage. -/
def RingBuffer.content (rb : RingBuffer) : List Nat :=
  rb.rot.take rb.unlockedLen

/-- Runs a sequence of Read calls of the given lengths, collecting each
call's delivered bytes and error; none if any call panics. -/
def runReads : Except RBPanic RingBuffer → List Nat →
    Option (List (List Nat × Option GoErr))
  | .error _, _ => none
  | .ok _, [] => some []
  | .ok rb, n :: ns =>
    match rb.Read n with
    | .error _ => none
    | .ok (out, e, rb1) => (runReads (.ok rb1) ns).map ((out, e) :: ·)

namespace RingBuffer

theorem listWrite_length (l : List Nat) (i : Nat) (xs : List Nat) :
    (listWrite l i xs).length = l.length := by
  simp [listWrite]
  omega

theorem listWrite_nil (l : List Nat) (i : Nat) : listWrite l i [] = l := by
  simp [listWrite]

theorem listWrite_exact (l : List Nat) (i : Nat) (xs : List Nat)
    (h : i + xs.length ≤ l.length) :
    listWrite l i xs = l.take i ++ xs ++ l.drop (i + xs.length) := by
  have h1 : xs.length ≤ l.length - i := by omega
  rw [listWrite, List.take_of_length_le h1, min_eq_left h1]

theorem mod_two_cases (a b C : Nat) (ha : a < C) (hb : b ≤ C) :
    (a + b) % C = if a + b < C then a + b else a + b - C := by
  split_ifs with h
  · exact Nat.mod_eq_of_lt h
  · rw [Nat.mod_eq_sub_mod (by omega)]
    exact Nat.mod_eq_of_lt (by omega)

theorem len_le (rb : RingBuffer) : rb.unlockedLen ≤ rb.buffer.length := by
  unfold unlockedLen; omega

theorem cap_le (rb : RingBuffer) (hw : rb.WF) :
    rb.unlockedCapacity ≤ rb.buffer.length := by
  obtain ⟨w1, w2, w3⟩ := hw
  unfold unlockedCapacity
  split_ifs <;> omega

theorem len_add_cap (rb : RingBuffer) (hw : rb.WF) :
    rb.unlockedLen + rb.unlockedCapacity = rb.buffer.length := by
  have := rb.cap_le hw
  unfold unlockedLen
  omega

theorem unlockedCapacity_eq (rb : RingBuffer) :
    rb.unlockedCapacity = if rb.filled then 0 else if rb.tail < rb.head
      then rb.head - rb.tail else rb.buffer.length - (rb.tail - rb.head) := rfl

theorem unlockedLen_eq (rb : RingBuffer) :
    rb.unlockedLen = rb.buffer.length - rb.unlockedCapacity := rfl

theorem window_eq_rot_take (rb : RingBuffer) (hw : rb.WF) (n : Nat)
    (hn : n ≤ rb.buffer.length) :
    (if rb.head + n ≤ rb.buffer.length then (rb.buffer.drop rb.head).take n
     else (rb.buffer.drop rb.head).take (rb.buffer.length - rb.head) ++
          rb.buffer.take (n - (rb.buffer.length - rb.head))) = rb.rot.take n := by
  obtain ⟨w1, w2, w3⟩ := hw
  rw [rot, List.take_append_eq_append_take]
  split_ifs with hc
  · rw [List.length_drop, show n - (rb.buffer.length - rb.head) = 0 from by omega]
    simp
  · have e1 : (rb.buffer.drop rb.head).take (rb.buffer.length - rb.head)
        = rb.buffer.drop rb.head := List.take_of_length_le (by simp)
    have e2 : (rb.buffer.drop rb.head).take n
        = rb.buffer.drop rb.head := List.take_of_length_le (by simp; omega)
    have e3 : (rb.buffer.take rb.head).take (n - (rb.buffer.drop rb.head).length)
        = rb.buffer.take (n - (rb.buffer.length - rb.head)) := by
      rw [List.length_drop, List.take_take, min_eq_left (by omega)]
    rw [e1, e2, e3]

theorem unlockedLen_read (rb : RingBuffer) (hw : rb.WF) (n : Nat)
    (hn : n ≤ rb.unlockedLen) (hnf : rb.filled = true → 0 < n) :
    ({ rb with head := (rb.head + n) % rb.buffer.length,
               filled := false } : RingBuffer).unlockedLen
      = rb.unlockedLen - n := by
  obtain ⟨w1, w2, w3⟩ := hw
  have hmod := mod_two_cases rb.head n rb.buffer.length w1 (le_trans hn rb.len_le)
  simp only [unlockedLen_eq, unlockedCapacity_eq] at hn ⊢
  simp only [Bool.false_eq_true, if_false]
  rcases Nat.lt_or_ge (rb.head + n) rb.buffer.length with hcase | hcase
  · rw [show (rb.head + n) % rb.buffer.length = rb.head + n from by rw [hmod, if_pos hcase]]
    by_cases hf : rb.filled = true
    · have het := w3 hf
      have hn1 := hnf hf
      rw [if_pos hf] at hn ⊢
      split_ifs at hn ⊢ <;> omega
    · rw [if_neg hf] at hn ⊢
      split_ifs at hn ⊢ <;> omega
  · rw [show (rb.head + n) % rb.buffer.length = rb.head + n - rb.buffer.length from by rw [hmod, if_neg (by omega)]]
    by_cases hf : rb.filled = true
    · have het := w3 hf
      have hn1 := hnf hf
      rw [if_pos hf] at hn ⊢
      split_ifs at hn ⊢ <;> omega
    · rw [if_neg hf] at hn ⊢
      split_ifs at hn ⊢ <;> omega

theorem rot_len_raw (rb : RingBuffer) (w1 : rb.head < rb.buffer.length) :
    rb.rot.length = rb.buffer.length := by
  simp [rot]
  omega

theorem rot_get (rb : RingBuffer) (w1 : rb.head < rb.buffer.length) (i : Nat)
    (hi : i < rb.rot.length)
    (hi2 : (rb.head + i) % rb.buffer.length < rb.buffer.length) :
    rb.rot[i] = rb.buffer[(rb.head + i) % rb.buffer.length] := by
  have hiC : i < rb.buffer.length := by rw [rot_len_raw rb w1] at hi; exact hi
  simp only [rot] at hi ⊢
  rcases Nat.lt_or_ge i (rb.buffer.length - rb.head) with hc | hc
  · rw [List.getElem_append_left (by simp; omega)]
    rw [List.getElem_drop]
    have : (rb.head + i) % rb.buffer.length = rb.head + i := Nat.mod_eq_of_lt (by omega)
    simp only [this]
  · rw [List.getElem_append_right (by simp; omega)]
    simp only [List.length_drop]
    rw [List.getElem_take]
    have : (rb.head + i) % rb.buffer.length = i - (rb.buffer.length - rb.head) := by
      rw [mod_two_cases rb.head i rb.buffer.length w1 (by omega), if_neg (by omega)]
      omega
    simp only [this]

theorem rot_read (rb : RingBuffer) (w1 : rb.head < rb.buffer.length)
    (n m : Nat) (hn : n ≤ rb.buffer.length) (hm : m ≤ rb.buffer.length - n) :
    (({ rb with head := (rb.head + n) % rb.buffer.length, filled := false } : RingBuffer).rot).take m
      = (rb.rot.drop n).take m := by
  have hC : 0 < rb.buffer.length := by omega
  set rb2 : RingBuffer := { rb with head := (rb.head + n) % rb.buffer.length, filled := false } with hrb2
  have hbuf : rb2.buffer = rb.buffer := rfl
  have w1a : rb2.head < rb2.buffer.length := Nat.mod_lt _ hC
  have hrl : rb2.rot.length = rb.buffer.length := rot_len_raw rb2 w1a
  have hrl2 : rb.rot.length = rb.buffer.length := rot_len_raw rb w1
  apply List.ext_getElem
  · rw [List.length_take, List.length_take, List.length_drop, hrl, hrl2]
    omega
  · intro i h1 h2
    have hiM : i < m := by
      rw [List.length_take] at h1; omega
    have hiC : i < rb.buffer.length := by
      rw [List.length_take, hrl] at h1; omega
    rw [List.getElem_take, List.getElem_take, List.getElem_drop]
    rw [rot_get rb2 w1a i (by omega) (Nat.mod_lt _ hC),
        rot_get rb w1 (n + i) (by omega) (Nat.mod_lt _ hC)]
    have hidx : (rb2.head + i) % rb.buffer.length
        = (rb.head + (n + i)) % rb.buffer.length := by
      show ((rb.head + n) % rb.buffer.length + i) % rb.buffer.length = _
      rw [Nat.mod_add_mod, Nat.add_assoc]
    congr 1

theorem content_take (rb : RingBuffer) (n : Nat) (hn : n ≤ rb.unlockedLen) :
    rb.content.take n = rb.rot.take n := by
  rw [content, List.take_take, min_eq_left hn]

theorem content_read (rb : RingBuffer) (hw : rb.WF) (n : Nat)
    (hn : n ≤ rb.unlockedLen) (hnf : rb.filled = true → 0 < n) :
    ({ rb with head := (rb.head + n) % rb.buffer.length,
               filled := false } : RingBuffer).content
      = rb.content.drop n := by
  have hL := rb.len_le
  rw [content, content, unlockedLen_read rb hw n hn hnf, List.drop_take]
  exact rot_read rb hw.1 n (rb.unlockedLen - n) (by omega) (by omega)

theorem readBytes_spec (rb : RingBuffer) (hw : rb.WF) (n : Nat)
    (hn : n ≤ rb.unlockedLen) :
    rb.readBytes n = .ok (rb.content.take n,
      { rb with head := (rb.head + n) % rb.buffer.length, filled := false }) := by
  obtain ⟨w1, w2, w3⟩ := hw
  rw [readBytes, if_neg (by omega), if_neg (by omega)]
  dsimp only
  rw [content_take rb n hn]
  rw [window_eq_rot_take rb ⟨w1, w2, w3⟩ n (le_trans hn rb.len_le)]

theorem listWrite_get_old (l data : List Nat) (t j : Nat)
    (hNW : t + data.length ≤ l.length) (hj : j < l.length)
    (hout : j < t ∨ t + data.length ≤ j)
    (hb : j < (listWrite l t data).length) :
    (listWrite l t data)[j] = l[j] := by
  simp only [listWrite_exact l t data hNW] at hb ⊢
  rcases hout with hlt | hge
  · rw [List.getElem_append_left (by simp; omega)]
    rw [List.getElem_append_left (by simp; omega)]
    rw [List.getElem_take]
  · rw [List.getElem_append_right (by simp; omega)]
    rw [List.getElem_drop]
    congr 1
    simp
    omega

theorem listWrite_get_new (l data : List Nat) (t j : Nat)
    (hNW : t + data.length ≤ l.length) (hj : j < l.length)
    (hin1 : t ≤ j) (hin2 : j < t + data.length)
    (hjd : j - t < data.length)
    (hb : j < (listWrite l t data).length) :
    (listWrite l t data)[j] = data[j - t] := by
  simp only [listWrite_exact l t data hNW] at hb ⊢
  rw [List.getElem_append_left (by simp; omega)]
  rw [List.getElem_append_right (by simp; omega)]
  congr 1
  simp
  omega

theorem tail_eq_mod (rb : RingBuffer) (hw : rb.WF) :
    (rb.head + rb.unlockedLen) % rb.buffer.length = rb.tail := by
  obtain ⟨w1, w2, w3⟩ := hw
  rw [unlockedLen_eq, unlockedCapacity_eq]
  by_cases hf : rb.filled = true
  · have het := w3 hf
    rw [if_pos hf]
    rw [show rb.head + (rb.buffer.length - 0) = rb.buffer.length + rb.tail from by omega]
    rw [Nat.add_mod_left]
    exact Nat.mod_eq_of_lt w2
  · rw [if_neg hf]
    split_ifs with hc
    · rw [show rb.head + (rb.buffer.length - (rb.head - rb.tail))
          = rb.buffer.length + rb.tail from by omega]
      rw [Nat.add_mod_left]
      exact Nat.mod_eq_of_lt w2
    · rw [show rb.head + (rb.buffer.length - (rb.buffer.length - (rb.tail - rb.head)))
          = rb.tail from by omega]
      exact Nat.mod_eq_of_lt w2

theorem listWriteW_eq (l data : List Nat) (t : Nat) (w2 : t < l.length)
    (hW : l.length < t + data.length)
    (hd2 : data.length - (l.length - t) ≤ t) :
    listWrite (listWrite l t (data.take (l.length - t))) 0 (data.drop (l.length - t))
      = data.drop (l.length - t) ++ (l.take t).drop (data.length - (l.length - t))
        ++ data.take (l.length - t) := by
  have hinner : listWrite l t (data.take (l.length - t))
      = l.take t ++ data.take (l.length - t) := by
    rw [listWrite_exact _ _ _ (by simp; omega)]
    rw [show t + (data.take (l.length - t)).length = l.length from by simp; omega]
    simp
  rw [hinner]
  rw [listWrite_exact _ _ _ (by simp; omega)]
  rw [List.take_zero, List.nil_append, Nat.zero_add]
  rw [List.drop_append_eq_append_drop]
  rw [show (data.drop (l.length - t)).length - (l.take t).length = 0 from by simp; omega]
  rw [List.drop_zero, List.length_drop]
  rw [List.append_assoc]

theorem writeBytes_eq (rb : RingBuffer) (hw : rb.WF) (data : List Nat)
    (hd : data.length ≤ rb.unlockedCapacity) :
    rb.writeBytes data = .ok { rb with
      buffer := if rb.tail + data.length ≤ rb.buffer.length
                then listWrite rb.buffer rb.tail data
                else listWrite (listWrite rb.buffer rb.tail
                       (data.take (rb.buffer.length - rb.tail))) 0
                       (data.drop (rb.buffer.length - rb.tail)),
      tail := (rb.tail + data.length) % rb.buffer.length,
      filled := if rb.head = (rb.tail + data.length) % rb.buffer.length
                then true else rb.filled } := by
  obtain ⟨w1, w2, w3⟩ := hw
  have hdelta : data.length ≤ (if rb.tail < rb.head then rb.head - rb.tail
      else rb.buffer.length - (rb.tail - rb.head)) := by
    rw [unlockedCapacity_eq] at hd
    by_cases hf : rb.filled = true
    · have het := w3 hf
      rw [if_pos hf] at hd
      split_ifs <;> omega
    · rw [if_neg hf] at hd
      exact hd
  simp only [writeBytes]
  rw [if_neg (by omega : ¬ (if rb.tail < rb.head then rb.head - rb.tail
        else rb.buffer.length - (rb.tail - rb.head)) < data.length)]
  rw [if_neg (by omega : ¬ rb.buffer.length = 0)]

theorem unlockedLen_write (rb : RingBuffer) (hw : rb.WF) (b : List Nat) (d : Nat)
    (hb : b.length = rb.buffer.length) (hd : d ≤ rb.unlockedCapacity)
    (hside : rb.filled = true ∨ rb.head ≠ rb.tail ∨ 0 < d) :
    ({ rb with buffer := b, tail := (rb.tail + d) % rb.buffer.length, filled := if rb.head = (rb.tail + d) % rb.buffer.length then true else rb.filled } : RingBuffer).unlockedLen = rb.unlockedLen + d := by
  obtain ⟨w1, w2, w3⟩ := hw
  have hKC : rb.unlockedCapacity ≤ rb.buffer.length := cap_le rb ⟨w1, w2, w3⟩
  have hLL : rb.unlockedLen = rb.buffer.length - rb.unlockedCapacity := rfl
  have hmod := mod_two_cases rb.tail d rb.buffer.length w2 (by omega)
  rw [unlockedLen_eq, unlockedCapacity_eq]
  dsimp only
  rw [hb]
  rw [unlockedCapacity_eq] at hd
  by_cases hf : rb.filled = true
  · have het := w3 hf
    rw [if_pos hf] at hd
    have hd0 : d = 0 := by omega
    subst hd0
    have ht2v : (rb.tail + 0) % rb.buffer.length = rb.tail := by
      rw [Nat.add_zero]; exact Nat.mod_eq_of_lt w2
    rw [ht2v, if_pos het, hLL, unlockedCapacity_eq, if_pos hf]
    simp
  · rw [if_neg hf] at hd
    rw [hLL, unlockedCapacity_eq, if_neg hf]
    by_cases hht : rb.head = (rb.tail + d) % rb.buffer.length
    · rw [if_pos hht]
      rw [hmod] at hht
      simp only [show ((true : Bool) = true) = True from by simp, if_true]
      rcases hside with hs | hs | hs
      · exact absurd hs hf
      · split_ifs at hht hd ⊢ <;> omega
      · split_ifs at hht hd ⊢ <;> omega
    · rw [if_neg hht]
      rw [if_neg hf]
      rw [hmod] at hht ⊢
      split_ifs at hht hd ⊢ <;> omega

theorem WF_write (rb : RingBuffer) (hw : rb.WF) (b : List Nat) (d : Nat)
    (hb : b.length = rb.buffer.length) (hd : d ≤ rb.unlockedCapacity) :
    ({ rb with buffer := b, tail := (rb.tail + d) % rb.buffer.length, filled := if rb.head = (rb.tail + d) % rb.buffer.length then true else rb.filled } : RingBuffer).WF := by
  obtain ⟨w1, w2, w3⟩ := hw
  have hC : 0 < rb.buffer.length := by omega
  refine ⟨by simpa [hb] using w1, by simpa [hb] using Nat.mod_lt _ hC, ?_⟩
  intro hfill
  by_cases hht : rb.head = (rb.tail + d) % rb.buffer.length
  · exact hht
  · simp only [if_neg hht] at hfill
    have het := w3 hfill
    have hd0 : d = 0 := by
      rw [unlockedCapacity_eq, if_pos hfill] at hd; omega
    subst hd0
    rw [Nat.add_zero, Nat.mod_eq_of_lt w2]
    exact het

theorem rotl_len (l : List Nat) (h : Nat) (hh : h < l.length) :
    (l.drop h ++ l.take h).length = l.length := by
  simp
  omega

theorem rotl_get (l : List Nat) (h i : Nat) (hh : h < l.length)
    (hi : i < (l.drop h ++ l.take h).length)
    (hi2 : (h + i) % l.length < l.length) :
    (l.drop h ++ l.take h)[i] = l[(h + i) % l.length] := by
  have hiC : i < l.length := by rw [rotl_len l h hh] at hi; exact hi
  rcases Nat.lt_or_ge i (l.length - h) with hc | hc
  · rw [List.getElem_append_left (by simp; omega)]
    rw [List.getElem_drop]
    have : (h + i) % l.length = h + i := Nat.mod_eq_of_lt (by omega)
    simp only [this]
  · rw [List.getElem_append_right (by simp; omega)]
    simp only [List.length_drop]
    rw [List.getElem_take]
    have : (h + i) % l.length = i - (l.length - h) := by
      rw [mod_two_cases h i l.length hh (by omega), if_neg (by omega)]
      omega
    simp only [this]

theorem rot_write_aux (l data : List Nat) (h t L : Nat)
    (hh : h < l.length) (htl : t < l.length) (hLd : L + data.length ≤ l.length)
    (ht1 : h + L < l.length → t = h + L)
    (ht2 : l.length ≤ h + L → t = h + L - l.length) :
    ((if t + data.length ≤ l.length then listWrite l t data
      else listWrite (listWrite l t (data.take (l.length - t))) 0
             (data.drop (l.length - t))).drop h ++
     (if t + data.length ≤ l.length then listWrite l t data
      else listWrite (listWrite l t (data.take (l.length - t))) 0
             (data.drop (l.length - t))).take h)
      = (l.drop h ++ l.take h).take L ++ data
        ++ (l.drop h ++ l.take h).drop (L + data.length) := by
  have hC : 0 < l.length := by omega
  have hrotl : (l.drop h ++ l.take h).length = l.length := rotl_len l h hh
  have htval : t = h + L ∨ (l.length ≤ h + L ∧ t = h + L - l.length) := by
    rcases Nat.lt_or_ge (h + L) l.length with hc | hc
    · exact Or.inl (ht1 hc)
    · exact Or.inr ⟨hc, ht2 hc⟩
  split_ifs with hbr
  · -- non-wrapping write: t + d ≤ C
    have hBlen : (listWrite l t data).length = l.length := listWrite_length l t data
    apply List.ext_getElem
    · simp only [List.length_append, List.length_take, List.length_drop, hBlen, hrotl]
      omega
    · intro r h1 h2
      have hrC : r < l.length := by
        simp only [List.length_append, List.length_drop, List.length_take, hBlen] at h1
        omega
      have hjC : (h + r) % l.length < l.length := Nat.mod_lt _ hC
      have hjval : (h + r) % l.length = h + r
          ∨ (l.length ≤ h + r ∧ (h + r) % l.length = h + r - l.length) := by
        rcases Nat.lt_or_ge (h + r) l.length with hc | hc
        · exact Or.inl (by rw [mod_two_cases h r l.length hh (by omega), if_pos hc])
        · exact Or.inr ⟨hc, by rw [mod_two_cases h r l.length hh (by omega), if_neg (by omega)]⟩
      rw [rotl_get (listWrite l t data) h r (by rw [hBlen]; omega) h1
           (by rw [hBlen]; exact Nat.mod_lt _ hC)]
      simp only [hBlen]
      rcases Nat.lt_or_ge r L with hrL | hrL
      · -- r in the old valid region
        conv_rhs => rw [List.getElem_append_left (by simp only [List.length_append, List.length_take, hrotl]; omega)]
        conv_rhs => rw [List.getElem_append_left (by simp only [List.length_take, hrotl]; omega)]
        conv_rhs => rw [List.getElem_take]
        rw [rotl_get l h r hh (by rw [hrotl]; omega) hjC]
        rw [listWrite_get_old l data t ((h + r) % l.length) hbr hjC
             (by rcases htval with ht3 | ⟨htg, ht3⟩ <;> rcases hjval with hj3 | ⟨hjg, hj3⟩ <;> omega)
             (by rw [hBlen]; omega)]
      rcases Nat.lt_or_ge r (L + data.length) with hrLd | hrLd
      · -- r in the freshly written region
        conv_rhs => rw [List.getElem_append_left (by simp only [List.length_append, List.length_take, hrotl]; omega)]
        conv_rhs => rw [List.getElem_append_right (by simp only [List.length_take, hrotl]; omega)]
        rw [listWrite_get_new l data t ((h + r) % l.length) hbr hjC
             (by rcases htval with ht3 | ⟨htg, ht3⟩ <;> rcases hjval with hj3 | ⟨hjg, hj3⟩ <;> omega)
             (by rcases htval with ht3 | ⟨htg, ht3⟩ <;> rcases hjval with hj3 | ⟨hjg, hj3⟩ <;> omega)
             (by rcases htval with ht3 | ⟨htg, ht3⟩ <;> rcases hjval with hj3 | ⟨hjg, hj3⟩ <;> omega)
             (by rw [hBlen]; omega)]
        congr 1
        simp only [List.length_take, hrotl]
        rcases htval with ht3 | ⟨htg, ht3⟩ <;> rcases hjval with hj3 | ⟨hjg, hj3⟩ <;> omega
      · -- r beyond the written region
        conv_rhs => rw [List.getElem_append_right (by simp only [List.length_append, List.length_take, hrotl]; omega)]
        conv_rhs => rw [List.getElem_drop]
        rw [rotl_get l h _ hh (by simp only [List.length_append, List.length_take, List.length_drop, hrotl] at h2 ⊢; omega) (Nat.mod_lt _ hC)]
        rw [listWrite_get_old l data t ((h + r) % l.length) hbr hjC
             (by rcases htval with ht3 | ⟨htg, ht3⟩ <;> rcases hjval with hj3 | ⟨hjg, hj3⟩ <;> omega)
             (by rw [hBlen]; omega)]
        congr 2
        simp only [List.length_append, List.length_take, hrotl]
        omega
  · -- wrapping write: C < t + d
    have hWcase : t = h + L ∧ h ≤ t := by
      rcases htval with ht3 | ⟨htg, ht3⟩
      · exact ⟨ht3, by omega⟩
      · omega
    obtain ⟨htv, hht⟩ := hWcase
    have hd2 : data.length - (l.length - t) ≤ t := by omega
    rw [listWriteW_eq l data t htl (by omega) hd2]
    have hBlen : (data.drop (l.length - t) ++ (l.take t).drop (data.length - (l.length - t))
        ++ data.take (l.length - t)).length = l.length := by
      simp only [List.length_append, List.length_take, List.length_drop]
      omega
    apply List.ext_getElem
    · simp only [List.length_append, List.length_take, List.length_drop, hrotl]
      omega
    · intro r h1 h2
      have hrC : r < l.length := by
        simp only [List.length_append, List.length_drop, List.length_take] at h1
        omega
      have hjC : (h + r) % l.length < l.length := Nat.mod_lt _ hC
      have hjval : (h + r) % l.length = h + r
          ∨ (l.length ≤ h + r ∧ (h + r) % l.length = h + r - l.length) := by
        rcases Nat.lt_or_ge (h + r) l.length with hc | hc
        · exact Or.inl (by rw [mod_two_cases h r l.length hh (by omega), if_pos hc])
        · exact Or.inr ⟨hc, by rw [mod_two_cases h r l.length hh (by omega), if_neg (by omega)]⟩
      rw [rotl_get _ h r (by rw [hBlen]; omega) h1 (by rw [hBlen]; exact Nat.mod_lt _ hC)]
      simp only [hBlen]
      rcases Nat.lt_or_ge r L with hrL | hrL
      · -- old valid region: j lands in the middle (untouched) segment
        have hjmid : data.length - (l.length - t) ≤ (h + r) % l.length
            ∧ (h + r) % l.length < t := by
          rcases hjval with hj3 | ⟨hjg, hj3⟩ <;> exact ⟨by omega, by omega⟩
        conv_rhs => rw [List.getElem_append_left (by simp only [List.length_append, List.length_take, hrotl]; omega)]
        conv_rhs => rw [List.getElem_append_left (by simp only [List.length_take, hrotl]; omega)]
        conv_rhs => rw [List.getElem_take]
        conv_rhs => rw [rotl_get l h r hh (by rw [hrotl]; omega) hjC]
        conv_lhs => rw [List.getElem_append_left (by simp only [List.length_append, List.length_take, List.length_drop]; omega)]
        conv_lhs => rw [List.getElem_append_right (by simp only [List.length_drop]; omega)]
        conv_lhs => rw [List.getElem_drop]
        conv_lhs => rw [List.getElem_take]
        congr 1
        simp only [List.length_drop]
        omega
      rcases Nat.lt_or_ge r (L + data.length) with hrLd | hrLd
      · -- fresh region: j is in the high part [t, C) or the low part [0, d - pivot)
        conv_rhs => rw [List.getElem_append_left (by simp only [List.length_append, List.length_take, hrotl]; omega)]
        conv_rhs => rw [List.getElem_append_right (by simp only [List.length_take, hrotl]; omega)]
        rcases Nat.lt_or_ge (h + r) l.length with hjc | hjc
        · -- no wraparound yet: j = h + r sits in [t, C): third segment
          have hjv2 : (h + r) % l.length = h + r := Nat.mod_eq_of_lt hjc
          simp only [hjv2]
          conv_lhs => rw [List.getElem_append_right (by simp only [List.length_append, List.length_take, List.length_drop]; omega)]
          conv_lhs => rw [List.getElem_take]
          congr 1
          simp only [List.length_append, List.length_take, List.length_drop, hrotl]
          omega
        · -- wrapped: j = h + r - C sits in [0, d - pivot): first segment
          have hjv2 : (h + r) % l.length = h + r - l.length := by
            rw [mod_two_cases h r l.length hh (by omega), if_neg (by omega)]
          simp only [hjv2]
          conv_lhs => rw [List.getElem_append_left (by simp only [List.length_append, List.length_take, List.length_drop]; omega)]
          conv_lhs => rw [List.getElem_append_left (by simp only [List.length_drop]; omega)]
          conv_lhs => rw [List.getElem_drop]
          congr 1
          simp only [List.length_take, hrotl]
          omega
      · -- beyond the written region: j is again in the middle segment
        have hjmid : data.length - (l.length - t) ≤ (h + r) % l.length
            ∧ (h + r) % l.length < t := by
          rcases hjval with hj3 | ⟨hjg, hj3⟩ <;> exact ⟨by omega, by omega⟩
        conv_rhs => rw [List.getElem_append_right (by simp only [List.length_append, List.length_take, hrotl]; omega)]
        conv_rhs => rw [List.getElem_drop]
        have hXr : L + data.length
            + (r - (List.take L (List.drop h l ++ List.take h l) ++ data).length) = r := by
          simp only [List.length_append, List.length_take, hrotl]
          omega
        simp only [hXr]
        conv_rhs => rw [rotl_get l h r hh (by rw [hrotl]; omega) hjC]
        conv_lhs => rw [List.getElem_append_left (by simp only [List.length_append, List.length_take, List.length_drop]; omega)]
        conv_lhs => rw [List.getElem_append_right (by simp only [List.length_drop]; omega)]
        conv_lhs => rw [List.getElem_drop]
        conv_lhs => rw [List.getElem_take]
        congr 1
        simp only [List.length_append, List.length_take, List.length_drop, hrotl]
        rcases hjval with hj3 | ⟨hjg, hj3⟩ <;> omega

theorem take_write_extend (x data : List Nat) (L : Nat) (hx : L ≤ x.length) :
    (x.take L ++ data ++ x.drop (L + data.length)).take (L + data.length)
      = x.take L ++ data := by
  have hlen : (x.take L ++ data).length = L + data.length := by simp; omega
  rw [← hlen, List.take_left]

theorem writeBytes_spec (rb : RingBuffer) (hw : rb.WF) (data : List Nat)
    (hd : data.length ≤ rb.unlockedCapacity) :
    ∃ rb2, rb.writeBytes data = .ok rb2 ∧
      rb2.rd = rb.rd ∧ rb2.rdErr = rb.rdErr ∧ rb2.head = rb.head ∧
      rb2.buffer.length = rb.buffer.length ∧
      rb2.tail = (rb.tail + data.length) % rb.buffer.length ∧
      rb2.WF ∧
      rb2.rot = rb.rot.take rb.unlockedLen ++ data
        ++ rb.rot.drop (rb.unlockedLen + data.length) ∧
      ((rb.filled = true ∨ rb.head ≠ rb.tail ∨ 0 < data.length) →
        rb2.unlockedLen = rb.unlockedLen + data.length ∧
        rb2.content = rb.content ++ data) := by
  obtain ⟨w1, w2, w3⟩ := hw
  have hKC := cap_le rb ⟨w1, w2, w3⟩
  have hLK := len_add_cap rb ⟨w1, w2, w3⟩
  have hL := rb.len_le
  have hblen : (if rb.tail + data.length ≤ rb.buffer.length
      then listWrite rb.buffer rb.tail data
      else listWrite (listWrite rb.buffer rb.tail
             (data.take (rb.buffer.length - rb.tail))) 0
             (data.drop (rb.buffer.length - rb.tail))).length = rb.buffer.length := by
    split_ifs
    · rw [listWrite_length]
    · rw [listWrite_length, listWrite_length]
  have htm := tail_eq_mod rb ⟨w1, w2, w3⟩
  have hmodL := mod_two_cases rb.head rb.unlockedLen rb.buffer.length w1 hL
  have hrot : ({ rb with
      buffer := if rb.tail + data.length ≤ rb.buffer.length
                then listWrite rb.buffer rb.tail data
                else listWrite (listWrite rb.buffer rb.tail
                       (data.take (rb.buffer.length - rb.tail))) 0
                       (data.drop (rb.buffer.length - rb.tail)),
      tail := (rb.tail + data.length) % rb.buffer.length,
      filled := if rb.head = (rb.tail + data.length) % rb.buffer.length
                then true else rb.filled } : RingBuffer).rot
      = rb.rot.take rb.unlockedLen ++ data
        ++ rb.rot.drop (rb.unlockedLen + data.length) := by
    simp only [rot]
    exact rot_write_aux rb.buffer data rb.head rb.tail rb.unlockedLen w1 w2 (by omega)
      (fun hc => by rw [← htm, hmodL, if_pos hc])
      (fun hc => by rw [← htm, hmodL, if_neg (by omega)])
  refine ⟨_, writeBytes_eq rb ⟨w1, w2, w3⟩ data hd, rfl, rfl, rfl, hblen, rfl,
    WF_write rb ⟨w1, w2, w3⟩ _ data.length hblen hd, hrot, ?_⟩
  intro hside
  have hlen2 := unlockedLen_write rb ⟨w1, w2, w3⟩ _ data.length hblen hd hside
  refine ⟨hlen2, ?_⟩
  rw [content, content, hlen2, hrot]
  exact take_write_extend rb.rot data rb.unlockedLen (by rw [rot_len_raw rb w1]; omega)

end RingBuffer

theorem Source.grant_le (s : Source) (k : Nat) : s.grant k ≤ k := by
  rw [Source.grant]
  split_ifs
  · exact le_refl k
  · exact min_le_left k s.chunk

theorem Source.grant_pos (s : Source) (k : Nat) (hk : 0 < k) : 0 < s.grant k := by
  rw [Source.grant]
  split_ifs with hc
  · exact hk
  · exact lt_min hk (Nat.pos_of_ne_zero hc)

namespace RingBuffer

theorem prefill_noop_err (rb : RingBuffer) (e : GoErr) (he : rb.rdErr = some e) :
    rb.prefillBuffer = .ok rb := by
  unfold prefillBuffer
  rw [he]

theorem prefill_noop_nord (rb : RingBuffer) (he : rb.rdErr = none)
    (hr : rb.rd = none) : rb.prefillBuffer = .ok rb := by
  unfold prefillBuffer
  rw [he, hr]

theorem prefill_noop_full (rb : RingBuffer) (he : rb.rdErr = none) (src : Source)
    (hr : rb.rd = some src) (hc : rb.unlockedCapacity = 0) :
    rb.prefillBuffer = .ok rb := by
  unfold prefillBuffer
  rw [he, hr]
  simp [hc]

theorem prefill_read_data (rb : RingBuffer) (hw : rb.WF) (src : Source)
    (he : rb.rdErr = none) (hr : rb.rd = some src)
    (hc : rb.unlockedCapacity ≠ 0) (hd : src.data ≠ []) :
    ∃ rb2, rb.prefillBuffer = .ok rb2 ∧
      rb2.rd = some { src with data := src.data.drop (src.grant rb.unlockedCapacity) } ∧
      rb2.rdErr = none ∧ rb2.head = rb.head ∧
      rb2.buffer.length = rb.buffer.length ∧ rb2.WF ∧
      rb2.unlockedLen = rb.unlockedLen
        + (src.data.take (src.grant rb.unlockedCapacity)).length ∧
      rb2.content = rb.content ++ src.data.take (src.grant rb.unlockedCapacity) := by
  have hlen : (src.data.take (src.grant rb.unlockedCapacity)).length
      ≤ rb.unlockedCapacity := by
    simp only [List.length_take]
    exact le_trans (min_le_left _ _) (src.grant_le _)
  have hpos : 0 < (src.data.take (src.grant rb.unlockedCapacity)).length := by
    simp only [List.length_take]
    exact lt_min (src.grant_pos _ (by omega)) (List.length_pos.mpr hd)
  obtain ⟨rb2, heq, hrd, herr, hhead, hblen, htail, hwf, hrot, hcond⟩ :=
    writeBytes_spec rb hw (src.data.take (src.grant rb.unlockedCapacity)) hlen
  obtain ⟨hlen2, hcont2⟩ := hcond (Or.inr (Or.inr hpos))
  refine ⟨{ rb2 with rd := some { src with
      data := src.data.drop (src.grant rb.unlockedCapacity) } }, ?_, rfl, ?_, ?_, ?_, ?_, ?_, ?_⟩
  · unfold prefillBuffer
    rw [he, hr]
    dsimp only
    rw [if_pos hc, Source.read, if_neg hd]
    dsimp only
    rw [heq]
    rfl
  · exact herr.trans he
  · exact hhead
  · exact hblen
  · exact ⟨hwf.1, hwf.2.1, hwf.2.2⟩
  · exact hlen2
  · exact hcont2

theorem prefill_eof (rb : RingBuffer) (hw : rb.WF) (src : Source)
    (he : rb.rdErr = none) (hr : rb.rd = some src)
    (hc : rb.unlockedCapacity ≠ 0) (hd : src.data = [])
    (ht : src.term = .eof) (hne : rb.unlockedLen ≠ 0) :
    ∃ rb2, rb.prefillBuffer = .ok rb2 ∧
      rb2.rd = none ∧ rb2.rdErr = some .eof ∧ rb2.head = rb.head ∧
      rb2.buffer.length = rb.buffer.length ∧ rb2.WF ∧
      rb2.unlockedLen = rb.unlockedLen ∧ rb2.content = rb.content := by
  have hside : rb.filled = true ∨ rb.head ≠ rb.tail ∨ 0 < ([] : List Nat).length := by
    by_cases hf : rb.filled = true
    · exact Or.inl hf
    · refine Or.inr (Or.inl ?_)
      intro hht
      apply hne
      rw [unlockedLen_eq, unlockedCapacity_eq, if_neg hf, if_neg (by omega), hht]
      omega
  obtain ⟨rb2, heq, hrd, herr, hhead, hblen, htail, hwf, hrot, hcond⟩ :=
    writeBytes_spec rb hw [] (by simp)
  obtain ⟨hlen2, hcont2⟩ := hcond hside
  refine ⟨{ rb2 with rd := none, rdErr := some .eof }, ?_, rfl, rfl, hhead, hblen,
    ⟨hwf.1, hwf.2.1, hwf.2.2⟩, ?_, ?_⟩
  · unfold prefillBuffer
    rw [he, hr]
    dsimp only
    rw [if_pos hc, Source.read, if_pos hd, ht]
    dsimp only
    rw [heq]
    rfl
  · show rb2.unlockedLen = rb.unlockedLen
    rw [hlen2]
    simp
  · show rb2.content = rb.content
    rw [hcont2]
    simp

theorem prefill_eof_corrupt (rb : RingBuffer) (hw : rb.WF) (src : Source)
    (he : rb.rdErr = none) (hr : rb.rd = some src)
    (hc : rb.unlockedCapacity ≠ 0) (hd : src.data = [])
    (ht : src.term = .eof) (hht : rb.head = rb.tail) (_hf : rb.filled = false) :
    rb.prefillBuffer
      = .ok { rb with filled := true, rd := none, rdErr := some .eof } := by
  obtain ⟨w1, w2, w3⟩ := hw
  unfold prefillBuffer
  rw [he, hr]
  dsimp only
  rw [if_pos hc, Source.read, if_pos hd, ht]
  simp only [SrcTerminal.toErr]
  rw [writeBytes_eq rb ⟨w1, w2, w3⟩ [] (by simp)]
  have hmt : rb.tail % rb.buffer.length = rb.tail := Nat.mod_eq_of_lt w2
  simp [listWrite_nil, hmt, hht, show rb.tail ≤ rb.buffer.length from Nat.le_of_lt w2]
  rfl

theorem prefill_fatal (rb : RingBuffer) (src : Source)
    (he : rb.rdErr = none) (hr : rb.rd = some src)
    (hc : rb.unlockedCapacity ≠ 0) (hd : src.data = [])
    (ht : src.term = .fatal) :
    rb.prefillBuffer = .ok { rb with rdErr := some .fatal } := by
  unfold prefillBuffer
  rw [he, hr]
  dsimp only
  rw [if_pos hc, Source.read, if_pos hd, ht]
  simp only [SrcTerminal.toErr]

theorem content_length (rb : RingBuffer) (hw : rb.WF) :
    rb.content.length = rb.unlockedLen := by
  rw [content, List.length_take, rot_len_raw rb hw.1, min_eq_left rb.len_le]

theorem peekBytes_spec (rb : RingBuffer) (hw : rb.WF) (n : Nat)
    (hn : n ≤ rb.unlockedLen) :
    rb.peekBytes n = .ok (rb.content.take n) := by
  rw [content_take rb n hn]
  rw [peekBytes, if_neg (by omega)]
  exact congrArg _ (window_eq_rot_take rb hw n (le_trans hn rb.len_le))

theorem prefill_total (rb : RingBuffer) (hw : rb.WF) :
    ∃ rb2 tl, rb.prefillBuffer = .ok rb2 ∧ rb2.WF ∧ rb2.head = rb.head ∧
      rb2.buffer.length = rb.buffer.length ∧
      rb2.content = rb.content ++ tl ∧
      rb2.unlockedLen = rb.unlockedLen + tl.length := by
  rcases her : rb.rdErr with _ | e
  case some =>
    exact ⟨rb, [], prefill_noop_err rb e her, hw, rfl, rfl, by simp, by simp⟩
  case none =>
  rcases hrd : rb.rd with _ | src
  case none =>
    exact ⟨rb, [], prefill_noop_nord rb her hrd, hw, rfl, rfl, by simp, by simp⟩
  case some =>
  by_cases hc : rb.unlockedCapacity = 0
  · exact ⟨rb, [], prefill_noop_full rb her src hrd hc, hw, rfl, rfl, by simp, by simp⟩
  by_cases hdnil : src.data = []
  · rcases hterm : src.term with _ | _
    · by_cases hne : rb.unlockedLen = 0
      · have hKC := cap_le rb hw
        have hK : rb.unlockedCapacity = rb.buffer.length := by
          rw [unlockedLen_eq] at hne
          omega
        obtain ⟨w1, w2, w3⟩ := hw
        have hf : rb.filled = false := by
          rcases hfv : rb.filled
          · rfl
          · exfalso
            rw [unlockedCapacity_eq, if_pos hfv] at hK
            omega
        have hht : rb.head = rb.tail := by
          rw [unlockedCapacity_eq, if_neg (by rw [hf]; simp)] at hK
          split_ifs at hK <;> omega
        have hcrb : rb.content = [] := by
          rw [content, hne, List.take_zero]
        have hwf2 : ({ rb with filled := true, rd := none, rdErr := some GoErr.eof } : RingBuffer).WF := ⟨w1, w2, fun _ => hht⟩
        refine ⟨_, ({ rb with filled := true, rd := none, rdErr := some GoErr.eof } : RingBuffer).content,
          prefill_eof_corrupt rb ⟨w1, w2, w3⟩ src her hrd hc hdnil hterm hht hf, hwf2,
          rfl, rfl, by rw [hcrb]; simp, ?_⟩
        rw [hne, content_length _ hwf2, Nat.zero_add]
      · obtain ⟨rb2, heq, _, _, hhead, hblen, hwf2, hlen2, hcont2⟩ :=
          prefill_eof rb ⟨hw.1, hw.2.1, hw.2.2⟩ src her hrd hc hdnil hterm hne
        exact ⟨rb2, [], heq, hwf2, hhead, hblen, by rw [hcont2]; simp,
          by rw [hlen2]; simp⟩
    · refine ⟨{ rb with rdErr := some GoErr.fatal }, [],
        prefill_fatal rb src her hrd hc hdnil hterm, ⟨hw.1, hw.2.1, hw.2.2⟩,
        rfl, rfl, by show rb.content = rb.content ++ []; simp,
        by show rb.unlockedLen = rb.unlockedLen + ([] : List Nat).length; simp⟩
  · obtain ⟨rb2, heq, _, _, hhead, hblen, hwf2, hlen2, hcont2⟩ :=
      prefill_read_data rb hw src her hrd hc hdnil
    exact ⟨rb2, _, heq, hwf2, hhead, hblen, hcont2, hlen2⟩

theorem Peek_spec (rb : RingBuffer) (hw : rb.WF) (n : Nat) :
    ∃ rb1, rb.prefillBuffer = .ok rb1 ∧ rb1.WF ∧
      rb.Peek n = .ok (rb1.content.take (min rb1.unlockedLen n), rb1.rdErr, rb1) := by
  obtain ⟨rb1, tl, hpre, hwf1, hhead, hblen, hcont, hlen⟩ := prefill_total rb hw
  refine ⟨rb1, hpre, hwf1, ?_⟩
  unfold Peek
  rw [hpre]
  dsimp only
  rw [peekBytes_spec rb1 hwf1 _ (min_le_left _ _)]
  rfl

theorem WF_read (rb : RingBuffer) (hw : rb.WF) (n : Nat) :
    ({ rb with head := (rb.head + n) % rb.buffer.length, filled := false } : RingBuffer).WF := by
  obtain ⟨w1, w2, w3⟩ := hw
  refine ⟨?_, w2, by simp⟩
  exact Nat.mod_lt _ (by omega)

theorem Read_spec (rb : RingBuffer) (hw : rb.WF) (pLen : Nat) (hp : 0 < pLen) :
    ∃ rb1, rb.prefillBuffer = .ok rb1 ∧ rb1.WF ∧
      ((rb1.unlockedLen = 0 ∧ rb1.rdErr ≠ none ∧
          rb.Read pLen = .ok ([], rb1.rdErr, rb1)) ∨
       (¬(rb1.unlockedLen = 0 ∧ rb1.rdErr ≠ none) ∧
        ∃ rb2, rb.Read pLen
            = .ok (rb1.content.take (min rb1.unlockedLen pLen), none, rb2) ∧
          rb2.WF ∧ rb2.rd = rb1.rd ∧ rb2.rdErr = rb1.rdErr ∧
          rb2.buffer = rb1.buffer ∧ rb2.tail = rb1.tail ∧
          rb2.content = rb1.content.drop (min rb1.unlockedLen pLen) ∧
          rb2.unlockedLen = rb1.unlockedLen - min rb1.unlockedLen pLen)) := by
  obtain ⟨rb1, tl, hpre, hwf1, hhead, hblen, hcont, hlen⟩ := prefill_total rb hw
  refine ⟨rb1, hpre, hwf1, ?_⟩
  have hCpos : 0 < rb1.buffer.length := by
    obtain ⟨a, b, c⟩ := hwf1
    omega
  have hnf : rb1.filled = true → 0 < min rb1.unlockedLen pLen := by
    intro hf
    have hLC : rb1.unlockedLen = rb1.buffer.length := by
      rw [unlockedLen_eq, unlockedCapacity_eq, if_pos hf]
      omega
    rw [hLC]
    exact lt_min hCpos hp
  unfold Read readLoop
  rw [if_pos hp, hpre]
  dsimp only
  by_cases hbr : (rb1.unlockedLen = 0 ∧ rb1.rdErr ≠ none)
  · rw [if_pos hbr]
    refine Or.inl ⟨hbr.1, hbr.2, ?_⟩
    by_cases heof : rb1.rdErr = some .eof
    · rw [if_pos heof, heof]
    · rw [if_neg heof]
  · rw [if_neg hbr]
    simp only [Nat.sub_zero]
    rw [readBytes_spec rb1 hwf1 _ (min_le_left _ _)]
    dsimp only
    have hL2 : ({ rb1 with head := (rb1.head + min rb1.unlockedLen pLen) % rb1.buffer.length, filled := false } : RingBuffer).unlockedLen = rb1.unlockedLen - min rb1.unlockedLen pLen :=
      unlockedLen_read rb1 hwf1 _ (min_le_left _ _) hnf
    have hwf2 : ({ rb1 with head := (rb1.head + min rb1.unlockedLen pLen) % rb1.buffer.length, filled := false } : RingBuffer).WF :=
      WF_read rb1 hwf1 _
    have hcd : ({ rb1 with head := (rb1.head + min rb1.unlockedLen pLen) % rb1.buffer.length, filled := false } : RingBuffer).content = rb1.content.drop (min rb1.unlockedLen pLen) :=
      content_read rb1 hwf1 _ (min_le_left _ _) hnf
    by_cases hz : ({ rb1 with head := (rb1.head + min rb1.unlockedLen pLen) % rb1.buffer.length, filled := false } : RingBuffer).unlockedLen = 0
    · rw [if_pos hz]
      refine Or.inr ⟨hbr, _, ?_, hwf2, rfl, rfl, rfl, rfl, hcd, hL2⟩
      rw [List.nil_append]
    · rw [if_neg hz]
      have hrblen : min rb1.unlockedLen pLen = pLen := by
        rw [hL2] at hz
        omega
      unfold readLoop
      rw [hrblen] at hcd hL2 hwf2 ⊢
      rw [if_neg (by omega : ¬ 0 + pLen < pLen)]
      rw [if_pos (by omega : 0 + pLen ≠ 0)]
      refine Or.inr ⟨hbr, _, ?_, hwf2, rfl, rfl, rfl, rfl, hcd, hL2⟩
      rw [List.nil_append]

theorem Read_step (rb : RingBuffer) (hw : rb.WF) (n : Nat) (hn : 0 < n)
    (rbp : RingBuffer) (hpre : rb.prefillBuffer = .ok rbp)
    (hnz : ¬(rbp.unlockedLen = 0 ∧ rbp.rdErr ≠ none)) :
    ∃ out rb2, rb.Read n = .ok (out, none, rb2) ∧
      out.length = min rbp.unlockedLen n ∧ rb2.WF ∧ rb2.rd = rbp.rd ∧
      rb2.rdErr = rbp.rdErr ∧ rb2.buffer = rbp.buffer ∧
      rb2.unlockedLen = rbp.unlockedLen - min rbp.unlockedLen n := by
  obtain ⟨rb1, hpre1, hwf1, hdisj⟩ := Read_spec rb hw n hn
  rw [hpre] at hpre1
  simp only [Except.ok.injEq] at hpre1
  subst hpre1
  rcases hdisj with ⟨hz, hne, _⟩ | ⟨_, rb2, heq, hwf2, hrd, herr, hbuf, _, _, hlen⟩
  · exact absurd ⟨hz, hne⟩ hnz
  · refine ⟨_, rb2, heq, ?_, hwf2, hrd, herr, hbuf, hlen⟩
    rw [List.length_take, content_length _ hwf1]
    omega

theorem Read_eof_empty (rb : RingBuffer) (hw : rb.WF) (n : Nat) (hn : 0 < n)
    (he : rb.rdErr = some .eof) (hz : rb.unlockedLen = 0) :
    rb.Read n = .ok ([], some .eof, rb) := by
  obtain ⟨rb1, hpre1, hwf1, hdisj⟩ := Read_spec rb hw n hn
  rw [prefill_noop_err rb .eof he] at hpre1
  simp only [Except.ok.injEq] at hpre1
  subst hpre1
  rcases hdisj with ⟨_, _, heq⟩ | ⟨hne, _⟩
  · rw [heq, he]
  · exact absurd ⟨hz, by rw [he]; simp⟩ hne

theorem Read_eof_drain (rb : RingBuffer) (hw : rb.WF) (n : Nat) (hn : 0 < n)
    (he : rb.rdErr = some .eof) (hz : rb.unlockedLen ≠ 0) :
    ∃ out rb2, rb.Read n = .ok (out, none, rb2) ∧
      out.length = min rb.unlockedLen n ∧ rb2.rdErr = some .eof ∧
      rb2.unlockedLen = rb.unlockedLen - min rb.unlockedLen n := by
  obtain ⟨out, rb2, heq, hl, _, _, herr, _, hlen⟩ :=
    Read_step rb hw n hn rb (prefill_noop_err rb .eof he)
      (by intro h; exact hz h.1)
  exact ⟨out, rb2, heq, hl, herr.trans he, hlen⟩


end RingBuffer

/-- C1: the round-trip property fails on the code: with capacity 1 and the
one-byte source [7], draining the buffer with Read(1) calls delivers
[7], then [7] again (stale storage re-read after the EOF probe marks the
empty ring as full), then EOF; the concatenation [7, 7] differs from the
source sequence [7]. -/
theorem C1_roundtrip_failure :
    runReads (NewReaderSize ⟨[7], 0, .eof⟩ 1) [1, 1, 1]
      = some [([7], none), ([7], none), ([], some .eof)] ∧
    [7, 7] ≠ ([7] : List Nat) := by
  exact ⟨rfl, by decide⟩

/-- C2 counterexample: at a reachable state (capacity 2, one byte 9 still
buffered, source about to report end-of-stream), the Read call during
which the source reports EOF returns the remaining byte with status none,
not with the end-of-stream status the claim requires. -/
theorem C2_counterexample :
    (⟨some ⟨[], 0, .eof⟩, none, [9, 8], 0, 1, false⟩ : RingBuffer).Read 1
      = .ok ([9], none, ⟨none, some .eof, [9, 8], 1, 1, false⟩) ∧
    (none : Option GoErr) ≠ some .eof := by
  exact ⟨rfl, by decide⟩

/-- C3 counterexample: with capacity 1 over the two-byte source [1, 2],
a single Read(2) returns only one byte with no error although the source
is not exhausted (it still holds [2] and no error is recorded). -/
theorem C3_counterexample :
    (NewReaderSize ⟨[1, 2], 0, .eof⟩ 1).bind (fun rb => rb.Read 2)
      = .ok ([1], none, ⟨some ⟨[2], 0, .eof⟩, none, [1], 0, 0, false⟩) ∧
    ([1] : List Nat).length < 2 := by
  exact ⟨rfl, by decide⟩

/-- C4: the full flag does not track exactly-capacity occupancy: a
zero-byte write into an empty capacity-1 buffer sets full (the buffer then
claims one valid byte), and Skip(0) on a full capacity-2 buffer clears
full (the two valid bytes are forgotten). This is the slip behind the
failure of the repository digest test. -/
theorem C4_full_flag_bug :
    (New 1).Write [] = .ok (0, none, ⟨none, none, [0], 0, 0, true⟩) ∧
    (⟨none, none, [0], 0, 0, true⟩ : RingBuffer).unlockedLen = 1 ∧
    ((New 2).Write [5, 6]).bind (fun r => r.2.2.Skip 0)
      = .ok ⟨none, none, [5, 6], 0, 0, false⟩ ∧
    (⟨none, none, [5, 6], 0, 0, false⟩ : RingBuffer).unlockedLen = 0 := by
  refine ⟨rfl, by decide, rfl, by decide⟩

/-- C5 counterexample: a source that immediately reports a fatal error:
after the constructor prefill the error is recorded but the source
reference is retained (rd is not none), contradicting the claim that the
source reference is dropped on a fatal error. -/
theorem C5_counterexample :
    NewReaderSize ⟨[], 0, .fatal⟩ 1
      = .ok ⟨some ⟨[], 0, .fatal⟩, some .fatal, [0], 0, 0, false⟩ ∧
    (some (⟨[], 0, .fatal⟩ : Source) : Option Source) ≠ none := by
  exact ⟨rfl, by decide⟩

/-- C7 counterexample: over a source that hands out one byte per read
call (chunk 1) into a capacity-3 buffer, two successive Peek(3) calls
with no intervening consumption return 2 and then 3 bytes: the lengths
differ because the second Peek triggers another fill. -/
theorem C7_counterexample :
    (NewReaderSize ⟨[1, 2, 3], 1, .eof⟩ 3).bind (fun rb0 =>
      (rb0.Peek 3).bind (fun r1 => (r1.2.2.Peek 3).map fun r2 => (r1.1, r2.1)))
      = .ok ([1, 2], [1, 2, 3]) ∧
    ([1, 2] : List Nat).length ≠ ([1, 2, 3] : List Nat).length := by
  exact ⟨rfl, by decide⟩

/-- C8 counterexample: capacity 2 over the chunk-1 source [1, 2]: after
the constructor one byte is buffered, yet Peek(1) (whose request is fully
satisfiable from the buffer) still triggers a fill: the source is
consumed, the write cursor moves and the full flag is set. -/
theorem C8_counterexample :
    NewReaderSize ⟨[1, 2], 1, .eof⟩ 2
      = .ok ⟨some ⟨[2], 1, .eof⟩, none, [1, 0], 0, 1, false⟩ ∧
    (⟨some ⟨[2], 1, .eof⟩, none, [1, 0], 0, 1, false⟩ : RingBuffer).unlockedLen = 1 ∧
    (⟨some ⟨[2], 1, .eof⟩, none, [1, 0], 0, 1, false⟩ : RingBuffer).Peek 1
      = .ok ([1], none, ⟨some ⟨[], 1, .eof⟩, none, [1, 2], 0, 0, true⟩) ∧
    (⟨some ⟨[], 1, .eof⟩, none, [1, 2], 0, 0, true⟩ : RingBuffer)
      ≠ ⟨some ⟨[2], 1, .eof⟩, none, [1, 0], 0, 1, false⟩ := by
  exact ⟨rfl, by decide, rfl, by decide⟩

/-- C10 counterexample: on a capacity-0 buffer a Read with a zero-length
destination does not panic: it returns 0 bytes with no error, refuting
the claim that every Read call on a capacity-0 buffer panics. -/
theorem C10_counterexample :
    (New 0).Read 0 = .ok ([], none, New 0) ∧ (New 0).buffer.length = 0 := by
  exact ⟨rfl, rfl⟩

/-- C6: the Write contract: on a full buffer Write rejects the call with
the buffer-full condition and leaves the state unchanged; otherwise it
accepts exactly min(len(data), freeCapacity) bytes, advances the write
cursor by that amount modulo capacity, and reports the short-write
condition exactly when fewer than len(data) bytes were accepted. -/
theorem C6_write_contract (rb : RingBuffer) (data : List Nat) (hw : rb.WF) :
    (rb.filled = true → rb.Write data = .ok (0, some .bufferFull, rb)) ∧
    (rb.filled = false → ∃ rb2 e, rb.Write data
        = .ok (min data.length rb.unlockedCapacity, e, rb2) ∧
      rb2.tail = (rb.tail + min data.length rb.unlockedCapacity)
        % rb.buffer.length ∧
      rb2.head = rb.head ∧ rb2.buffer.length = rb.buffer.length ∧
      (e = some .shortWrite ↔ min data.length rb.unlockedCapacity < data.length) ∧
      (e = none ↔ min data.length rb.unlockedCapacity = data.length)) := by
  constructor
  · intro hf
    rw [RingBuffer.Write, if_pos hf]
  · intro hf
    obtain ⟨rb2, heq, hrd, herr, hhead, hblen, htail, hwf2, hrot, hcond⟩ :=
      RingBuffer.writeBytes_spec rb hw
        (data.take (min data.length rb.unlockedCapacity))
        (by simp only [List.length_take]; omega)
    refine ⟨rb2, if min data.length rb.unlockedCapacity ≠ data.length
        then some GoErr.shortWrite else none, ?_, ?_, hhead, hblen, ?_, ?_⟩
    · rw [RingBuffer.Write, if_neg (by rw [hf]; simp)]
      dsimp only
      rw [heq]
      rfl
    · rw [htail, List.length_take]
      congr 2
      omega
    · constructor
      · intro he
        by_cases hc : min data.length rb.unlockedCapacity ≠ data.length
        · have := min_le_left data.length rb.unlockedCapacity
          omega
        · rw [if_neg hc] at he
          exact absurd he (by simp)
      · intro hc
        rw [if_pos (by omega)]
    · constructor
      · intro he
        by_cases hc : min data.length rb.unlockedCapacity ≠ data.length
        · rw [if_pos hc] at he
          exact absurd he (by simp)
        · omega
      · intro hc
        rw [if_neg (by omega)]

/-- C6 witness: an empty capacity-2 buffer accepts one byte of a
one-byte write with no error and the cursor advances to 1. -/
theorem C6_write_contract_witness :
    (New 2).WF ∧
    ((New 2).filled = true → (New 2).Write [5] = .ok (0, some .bufferFull, New 2)) ∧
    ((New 2).filled = false → ∃ rb2 e, (New 2).Write [5]
        = .ok (min ([5] : List Nat).length (New 2).unlockedCapacity, e, rb2) ∧
      rb2.tail = ((New 2).tail + min ([5] : List Nat).length (New 2).unlockedCapacity)
        % (New 2).buffer.length ∧
      rb2.head = (New 2).head ∧ rb2.buffer.length = (New 2).buffer.length ∧
      (e = some .shortWrite ↔ min ([5] : List Nat).length (New 2).unlockedCapacity
          < ([5] : List Nat).length) ∧
      (e = none ↔ min ([5] : List Nat).length (New 2).unlockedCapacity
          = ([5] : List Nat).length)) :=
  ⟨by decide, C6_write_contract (New 2) [5] (by decide)⟩

/-- C9: Peek never panics: for every well-formed state and every request
length, Peek returns ok, and the returned length is capped at the
buffered length (it equals the minimum of the post-fill buffered length
and the request). -/
theorem C9_peek_no_panic (rb : RingBuffer) (n : Nat) (hw : rb.WF) :
    ∃ out e rb1, rb.Peek n = .ok (out, e, rb1) ∧
      out.length = min rb1.unlockedLen n ∧ out.length ≤ rb1.unlockedLen := by
  obtain ⟨rb1, hpre, hwf1, hpeek⟩ := RingBuffer.Peek_spec rb hw n
  refine ⟨_, _, rb1, hpeek, ?_, ?_⟩
  · rw [List.length_take, RingBuffer.content_length rb1 hwf1]
    omega
  · rw [List.length_take, RingBuffer.content_length rb1 hwf1]
    omega

/-- C9 witness: Peek(5) on a capacity-1 buffer holding one byte returns
that single byte without panicking. -/
theorem C9_peek_no_panic_witness :
    (⟨none, some .eof, [7], 0, 0, true⟩ : RingBuffer).WF ∧
    ∃ out e rb1,
      (⟨none, some .eof, [7], 0, 0, true⟩ : RingBuffer).Peek 5
        = .ok (out, e, rb1) ∧
      out.length = min rb1.unlockedLen 5 ∧ out.length ≤ rb1.unlockedLen :=
  ⟨by decide, C9_peek_no_panic ⟨none, some .eof, [7], 0, 0, true⟩ 5 (by decide)⟩

/-- C10 amended: on a capacity-0 buffer every Write call panics with the
division-by-zero of the cursor arithmetic (even for empty data), and so
does every Read call with a nonzero-length destination; a zero-length
Read, however, returns 0 bytes with no error. -/
theorem C10_amended :
    (∀ data : List Nat, (New 0).Write data = .error .divByZero) ∧
    (∀ n : Nat, 0 < n → (New 0).Read n = .error .divByZero) := by
  constructor
  · intro data
    have h0 : min data.length (New 0).unlockedCapacity = 0 := by
      simp [New, RingBuffer.unlockedCapacity_eq]
    rw [RingBuffer.Write, if_neg (by decide), h0]
    dsimp only
    rw [List.take_zero]
    rfl
  · intro n hn
    unfold RingBuffer.Read RingBuffer.readLoop
    rw [if_pos hn, RingBuffer.prefill_noop_nord (New 0) rfl rfl]
    dsimp only
    rw [if_neg (by simp [New])]
    rw [show (New 0).unlockedLen ⊓ (n - 0) = 0 from by
      simp [New, RingBuffer.unlockedLen_eq, RingBuffer.unlockedCapacity_eq]]
    rfl

/-- C10 witness: Write of one byte and Read(1) on the capacity-0 buffer
both panic with division by zero. -/
theorem C10_amended_witness :
    (New 0).Write [5] = .error .divByZero ∧
    (New 0).Read 1 = .error .divByZero :=
  ⟨C10_amended.1 [5], C10_amended.2 1 (by decide)⟩

/-- C3 amended: Read can return fewer than the requested bytes with the
source not exhausted: a call returns short exactly when its single
fill/drain pass drains the buffer empty (first conjunct: whenever a Read
returns fewer bytes than requested, the returned state has an empty
buffer); a request larger than the capacity is completed only across
successive Read calls, as the concrete capacity-1 run shows (second
conjunct). -/
theorem C3_amended :
    (∀ (rb : RingBuffer) (pLen : Nat) (out : List Nat) (e : Option GoErr)
        (rbf : RingBuffer), rb.WF → 0 < pLen →
      rb.Read pLen = .ok (out, e, rbf) → out.length < pLen →
      rbf.unlockedLen = 0) ∧
    runReads (NewReaderSize ⟨[1, 2], 0, .eof⟩ 1) [2, 2]
      = some [([1], none), ([2], none)] := by
  constructor
  · intro rb pLen out e rbf hw hp hread hshort
    obtain ⟨rb1, hpre, hwf1, hdisj⟩ := RingBuffer.Read_spec rb hw pLen hp
    rcases hdisj with ⟨hz, hne, heq⟩ | ⟨hne, rb2, heq, hwf2, _, _, _, _, _, hlen2⟩
    · rw [heq] at hread
      simp only [Except.ok.injEq, Prod.mk.injEq] at hread
      rw [← hread.2.2]
      exact hz
    · rw [heq] at hread
      simp only [Except.ok.injEq, Prod.mk.injEq] at hread
      obtain ⟨hout, hee, hrbf⟩ := hread
      have hL1 : rb1.content.length = rb1.unlockedLen :=
        RingBuffer.content_length rb1 hwf1
      rw [← hout] at hshort
      rw [List.length_take, hL1] at hshort
      rw [← hrbf, hlen2]
      omega
  · rfl

/-- C3 witness: a Read of one byte from an empty sourceless capacity-1
buffer returns zero bytes (fewer than requested) and indeed leaves an
empty buffer. -/
theorem C3_amended_witness :
    (New 1).WF ∧ 0 < 1 ∧ (New 1).Read 1 = .ok ([], none, New 1) ∧
    (New 1).unlockedLen = 0 :=
  ⟨by decide, by decide, rfl,
    C3_amended.1 (New 1) 1 [] none (New 1) (by decide) (by decide) rfl (by decide)⟩


/-- C8 amended: Peek triggers a fill unconditionally, not only when the
buffered bytes cannot satisfy the request: the fill is a no-op exactly
when an error is already recorded, the source is absent, or the buffer is
full (first conjunct); whenever the source is live and has data and the
buffer has free capacity, Peek consumes the source and grows the buffered
length even when the request is already satisfiable from the buffer
(second conjunct). -/
theorem C8_amended :
    (∀ (rb : RingBuffer) (n : Nat), rb.WF →
      (rb.rdErr ≠ none ∨ rb.rd = none ∨ rb.unlockedCapacity = 0) →
      rb.Peek n = .ok (rb.content.take (min rb.unlockedLen n), rb.rdErr, rb)) ∧
    (∀ (rb : RingBuffer) (n : Nat) (src : Source), rb.WF →
      rb.rdErr = none → rb.rd = some src →
      rb.unlockedCapacity ≠ 0 → src.data ≠ [] →
      ∃ rb1, rb.prefillBuffer = .ok rb1 ∧
        rb.Peek n = .ok (rb1.content.take (min rb1.unlockedLen n), none, rb1) ∧
        rb1.rd = some { src with data := src.data.drop (src.grant rb.unlockedCapacity) } ∧
        (src.data.drop (src.grant rb.unlockedCapacity)).length < src.data.length ∧
        rb.unlockedLen < rb1.unlockedLen) := by
  constructor
  · intro rb n hw hcase
    have hpre : rb.prefillBuffer = .ok rb := by
      rcases hcase with h | h | h
      · rcases he : rb.rdErr with _ | e
        · exact absurd he h
        · exact RingBuffer.prefill_noop_err rb e he
      · rcases he : rb.rdErr with _ | e
        · exact RingBuffer.prefill_noop_nord rb he h
        · exact RingBuffer.prefill_noop_err rb e he
      · rcases he : rb.rdErr with _ | e
        · rcases hr : rb.rd with _ | src
          · exact RingBuffer.prefill_noop_nord rb he hr
          · exact RingBuffer.prefill_noop_full rb he src hr h
        · exact RingBuffer.prefill_noop_err rb e he
    unfold RingBuffer.Peek
    rw [hpre]
    dsimp only
    rw [RingBuffer.peekBytes_spec rb hw _ (min_le_left _ _)]
    rfl
  · intro rb n src hw he hr hc hd
    obtain ⟨rb1, heq, hrd1, herr1, hhead1, hblen1, hwf1, hlen1, hcont1⟩ :=
      RingBuffer.prefill_read_data rb hw src he hr hc hd
    have hg : 0 < src.grant rb.unlockedCapacity :=
      Source.grant_pos src _ (Nat.pos_of_ne_zero hc)
    have hdl : 0 < src.data.length := List.length_pos.mpr hd
    refine ⟨rb1, heq, ?_, hrd1, ?_, ?_⟩
    · unfold RingBuffer.Peek
      rw [heq]
      dsimp only
      rw [RingBuffer.peekBytes_spec rb1 hwf1 _ (min_le_left _ _)]
      simp only [herr1]
      rfl
    · rw [List.length_drop]
      omega
    · rw [hlen1, List.length_take]
      omega

/-- C8 witness: a fresh capacity-1 buffer over the one-byte source [5]:
Peek(1) triggers a fill that consumes the source byte and raises the
buffered length from 0 to 1 even though the fill was not needed to answer
a zero-byte-buffered request of 1 byte. -/
theorem C8_amended_witness :
    (⟨some ⟨[5], 0, .eof⟩, none, [0], 0, 0, false⟩ : RingBuffer).WF ∧
    (⟨some ⟨[5], 0, .eof⟩, none, [0], 0, 0, false⟩ : RingBuffer).unlockedCapacity ≠ 0 ∧
    ([5] : List Nat) ≠ [] ∧
    ∃ rb1, (⟨some ⟨[5], 0, .eof⟩, none, [0], 0, 0, false⟩ : RingBuffer).prefillBuffer
        = .ok rb1 ∧
      (⟨some ⟨[5], 0, .eof⟩, none, [0], 0, 0, false⟩ : RingBuffer).Peek 1
        = .ok (rb1.content.take (min rb1.unlockedLen 1), none, rb1) ∧
      rb1.rd = some { (⟨[5], 0, .eof⟩ : Source) with
        data := (⟨[5], 0, .eof⟩ : Source).data.drop ((⟨[5], 0, .eof⟩ : Source).grant
          (⟨some ⟨[5], 0, .eof⟩, none, [0], 0, 0, false⟩ : RingBuffer).unlockedCapacity) } ∧
      ((⟨[5], 0, .eof⟩ : Source).data.drop ((⟨[5], 0, .eof⟩ : Source).grant
          (⟨some ⟨[5], 0, .eof⟩, none, [0], 0, 0, false⟩ : RingBuffer).unlockedCapacity)).length
        < ((⟨[5], 0, .eof⟩ : Source)).data.length ∧
      (⟨some ⟨[5], 0, .eof⟩, none, [0], 0, 0, false⟩ : RingBuffer).unlockedLen
        < rb1.unlockedLen :=
  ⟨by decide, by decide, by decide,
    C8_amended.2 ⟨some ⟨[5], 0, .eof⟩, none, [0], 0, 0, false⟩ 1 ⟨[5], 0, .eof⟩
      (by decide) rfl rfl (by decide) (by decide)⟩

/-- C5 amended: recorded source errors are sticky — with any error
recorded, a fill is a no-op returning the state unchanged — and the
buffered bytes remain drainable: Peek still serves them alongside the
sticky error; but the source reference is dropped only on end-of-stream:
a fatal report records the error while retaining the reference. -/
theorem C5_amended :
    (∀ (rb : RingBuffer) (e : GoErr), rb.rdErr = some e →
      rb.prefillBuffer = .ok rb) ∧
    (∀ (rb : RingBuffer) (src : Source), rb.WF → rb.rdErr = none →
      rb.rd = some src → rb.unlockedCapacity ≠ 0 → src.data = [] →
      src.term = .eof →
      ∃ rb2, rb.prefillBuffer = .ok rb2 ∧ rb2.rd = none ∧
        rb2.rdErr = some .eof) ∧
    (∀ (rb : RingBuffer) (src : Source), rb.rdErr = none →
      rb.rd = some src → rb.unlockedCapacity ≠ 0 → src.data = [] →
      src.term = .fatal →
      rb.prefillBuffer = .ok { rb with rdErr := some GoErr.fatal } ∧
      ({ rb with rdErr := some GoErr.fatal } : RingBuffer).rd = some src) ∧
    (∀ (rb : RingBuffer) (n : Nat) (e : GoErr), rb.WF → rb.rdErr = some e →
      rb.Peek n = .ok (rb.content.take (min rb.unlockedLen n), some e, rb)) := by
  refine ⟨?_, ?_, ?_, ?_⟩
  · intro rb e he
    exact RingBuffer.prefill_noop_err rb e he
  · intro rb src hw he hr hc hd ht
    by_cases hne : rb.unlockedLen = 0
    · have hKC := RingBuffer.cap_le rb hw
      have hK : rb.unlockedCapacity = rb.buffer.length := by
        rw [RingBuffer.unlockedLen_eq] at hne
        omega
      obtain ⟨w1, w2, w3⟩ := hw
      have hf : rb.filled = false := by
        rcases hfv : rb.filled
        · rfl
        · exfalso
          rw [RingBuffer.unlockedCapacity_eq, if_pos hfv] at hK
          omega
      have hht : rb.head = rb.tail := by
        rw [RingBuffer.unlockedCapacity_eq, if_neg (by rw [hf]; simp)] at hK
        split_ifs at hK <;> omega
      exact ⟨_, RingBuffer.prefill_eof_corrupt rb ⟨w1, w2, w3⟩ src he hr hc hd ht hht hf,
        rfl, rfl⟩
    · obtain ⟨rb2, heq, hrd2, herr2, _, _, _, _, _⟩ :=
        RingBuffer.prefill_eof rb hw src he hr hc hd ht hne
      exact ⟨rb2, heq, hrd2, herr2⟩
  · intro rb src he hr hc hd ht
    exact ⟨RingBuffer.prefill_fatal rb src he hr hc hd ht, hr⟩
  · intro rb n e hw he
    unfold RingBuffer.Peek
    rw [RingBuffer.prefill_noop_err rb e he]
    dsimp only
    rw [RingBuffer.peekBytes_spec rb hw _ (min_le_left _ _)]
    simp only [he]
    rfl

/-- C5 witness: a fill on a state with a recorded fatal error and a
retained source is a no-op; a source reporting end-of-stream into a fresh
capacity-1 buffer is dropped with the error recorded; a fatal report
keeps the reference; Peek on the fatal-errored state still drains the
buffered byte, reporting the sticky error. -/
theorem C5_amended_witness :
    (⟨some ⟨[3], 0, .fatal⟩, some .fatal, [9, 8], 0, 1, false⟩ : RingBuffer).prefillBuffer
      = .ok ⟨some ⟨[3], 0, .fatal⟩, some .fatal, [9, 8], 0, 1, false⟩ ∧
    (∃ rb2, (⟨some ⟨[], 0, .eof⟩, none, [0], 0, 0, false⟩ : RingBuffer).prefillBuffer
        = .ok rb2 ∧ rb2.rd = none ∧ rb2.rdErr = some .eof) ∧
    ((⟨some ⟨[], 0, .fatal⟩, none, [0], 0, 0, false⟩ : RingBuffer).prefillBuffer
        = .ok { (⟨some ⟨[], 0, .fatal⟩, none, [0], 0, 0, false⟩ : RingBuffer) with rdErr := some GoErr.fatal } ∧
      ({ (⟨some ⟨[], 0, .fatal⟩, none, [0], 0, 0, false⟩ : RingBuffer) with rdErr := some GoErr.fatal } : RingBuffer).rd
        = some ⟨[], 0, .fatal⟩) ∧
    (⟨some ⟨[3], 0, .fatal⟩, some .fatal, [9, 8], 0, 1, false⟩ : RingBuffer).Peek 5
      = .ok ((⟨some ⟨[3], 0, .fatal⟩, some .fatal, [9, 8], 0, 1, false⟩ : RingBuffer).content.take
          (min (⟨some ⟨[3], 0, .fatal⟩, some .fatal, [9, 8], 0, 1, false⟩ : RingBuffer).unlockedLen 5),
        some .fatal, ⟨some ⟨[3], 0, .fatal⟩, some .fatal, [9, 8], 0, 1, false⟩) :=
  ⟨C5_amended.1 ⟨some ⟨[3], 0, .fatal⟩, some .fatal, [9, 8], 0, 1, false⟩ .fatal rfl,
   C5_amended.2.1 ⟨some ⟨[], 0, .eof⟩, none, [0], 0, 0, false⟩ ⟨[], 0, .eof⟩
     (by decide) rfl rfl (by decide) rfl rfl,
   C5_amended.2.2.1 ⟨some ⟨[], 0, .fatal⟩, none, [0], 0, 0, false⟩ ⟨[], 0, .fatal⟩
     rfl rfl (by decide) rfl rfl,
   C5_amended.2.2.2 ⟨some ⟨[3], 0, .fatal⟩, some .fatal, [9, 8], 0, 1, false⟩ 5 .fatal
     (by decide) rfl⟩

/-- C7 amended: two successive Peek(n) calls need not return the same
bytes — the second fill can add data — but the first result is an initial
segment of the second, and when the first call already returned the full
n requested bytes the two results coincide. -/
theorem C7_amended (rb : RingBuffer) (n : Nat) (hw : rb.WF)
    (out1 out2 : List Nat) (e1 e2 : Option GoErr) (rbA rbB : RingBuffer)
    (h1 : rb.Peek n = .ok (out1, e1, rbA))
    (h2 : rbA.Peek n = .ok (out2, e2, rbB)) :
    (∃ ext, out2 = out1 ++ ext) ∧ (out1.length = n → out2 = out1) := by
  obtain ⟨r1, hpre1, hwf1, hpeek1⟩ := RingBuffer.Peek_spec rb hw n
  rw [hpeek1] at h1
  simp only [Except.ok.injEq, Prod.mk.injEq] at h1
  obtain ⟨hout1, he1, hr1⟩ := h1
  subst hr1
  obtain ⟨r2, hpre2, hwf2, hpeek2⟩ := RingBuffer.Peek_spec r1 hwf1 n
  rw [hpeek2] at h2
  simp only [Except.ok.injEq, Prod.mk.injEq] at h2
  obtain ⟨hout2, he2, hr2⟩ := h2
  obtain ⟨r2x, tl, hpre2x, hwf2x, _, _, hcontx, hlenx⟩ :=
    RingBuffer.prefill_total r1 hwf1
  rw [hpre2] at hpre2x
  simp only [Except.ok.injEq] at hpre2x
  subst hpre2x
  have hcl1 : r1.content.length = r1.unlockedLen := RingBuffer.content_length r1 hwf1
  have hkey : out2.take (min r1.unlockedLen n) = out1 := by
    rw [← hout2, ← hout1, hcontx, hlenx, List.take_take]
    rw [show min (min r1.unlockedLen n) (min (r1.unlockedLen + tl.length) n)
        = min r1.unlockedLen n from by omega]
    rw [List.take_append_eq_append_take, hcl1]
    rw [show min r1.unlockedLen n - r1.unlockedLen = 0 from by omega]
    simp
  refine ⟨⟨out2.drop (min r1.unlockedLen n), by rw [← hkey, List.take_append_drop]⟩, ?_⟩
  intro hlen
  have hmin : min r1.unlockedLen n = n := by
    rw [← hout1, List.length_take, hcl1] at hlen
    omega
  rw [← hout2, ← hout1, hcontx, hlenx, hmin]
  rw [show min (r1.unlockedLen + tl.length) n = n from by omega]
  rw [List.take_append_eq_append_take, hcl1]
  rw [show n - r1.unlockedLen = 0 from by omega]
  simp

/-- C7 witness: over the chunk-1 source with capacity 3, the first
Peek(3) returns [1, 2] and the second [1, 2, 3]: the first is an initial
segment of the second, and the equality clause is vacuous since the first
returned only 2 of the 3 requested bytes. -/
theorem C7_amended_witness :
    (⟨some ⟨[2, 3], 1, .eof⟩, none, [1, 0, 0], 0, 1, false⟩ : RingBuffer).WF ∧
    (⟨some ⟨[2, 3], 1, .eof⟩, none, [1, 0, 0], 0, 1, false⟩ : RingBuffer).Peek 3
      = .ok ([1, 2], none, ⟨some ⟨[3], 1, .eof⟩, none, [1, 2, 0], 0, 2, false⟩) ∧
    (⟨some ⟨[3], 1, .eof⟩, none, [1, 2, 0], 0, 2, false⟩ : RingBuffer).Peek 3
      = .ok ([1, 2, 3], none, ⟨some ⟨[], 1, .eof⟩, none, [1, 2, 3], 0, 0, true⟩) ∧
    ((∃ ext, ([1, 2, 3] : List Nat) = [1, 2] ++ ext) ∧
     (([1, 2] : List Nat).length = 3 → ([1, 2, 3] : List Nat) = [1, 2])) :=
  ⟨by decide, rfl, rfl,
    C7_amended ⟨some ⟨[2, 3], 1, .eof⟩, none, [1, 0, 0], 0, 1, false⟩ 3 (by decide)
      [1, 2] [1, 2, 3] none none
      ⟨some ⟨[3], 1, .eof⟩, none, [1, 2, 0], 0, 2, false⟩
      ⟨some ⟨[], 1, .eof⟩, none, [1, 2, 3], 0, 0, true⟩ rfl rfl⟩

set_option maxRecDepth 8000 in
/-- C2 corrected: once end-of-stream is recorded, a Read finding the
buffer empty returns zero bytes with the end-of-stream status and leaves
the state unchanged, while a Read finding bytes buffered returns up to
the requested amount of them with status none — not end-of-stream. In
the 1024/2000 scenario the four read(512) calls therefore return 512,
512, 512 and 464 bytes all with status none (the fourth, draining call
does not report end-of-stream, contrary to the claim), and only the
fifth call returns 0 bytes with end-of-stream. -/
theorem C2_amended :
    (∀ (rb : RingBuffer) (n : Nat), rb.WF → rb.rdErr = some .eof → 0 < n →
      (rb.unlockedLen = 0 → rb.Read n = .ok ([], some .eof, rb)) ∧
      (rb.unlockedLen ≠ 0 → ∃ out rb2, rb.Read n = .ok (out, none, rb2) ∧
        out.length = min rb.unlockedLen n ∧ rb2.rdErr = some .eof ∧
        rb2.unlockedLen = rb.unlockedLen - min rb.unlockedLen n)) ∧
    (∃ (rb0 rb2 rb4 rb6 rb8 : RingBuffer) (out1 out2 out3 out4 : List Nat),
      NewReaderSize ⟨List.range 2000, 0, .eof⟩ 1024 = .ok rb0 ∧
      rb0.Read 512 = .ok (out1, none, rb2) ∧ out1.length = 512 ∧
      rb2.Read 512 = .ok (out2, none, rb4) ∧ out2.length = 512 ∧
      rb4.Read 512 = .ok (out3, none, rb6) ∧ out3.length = 512 ∧
      rb6.Read 512 = .ok (out4, none, rb8) ∧ out4.length = 464 ∧
      rb8.Read 512 = .ok ([], some .eof, rb8)) := by
  constructor
  · intro rb n hw he hn
    exact ⟨fun hz => RingBuffer.Read_eof_empty rb hw n hn he hz,
           fun hz => RingBuffer.Read_eof_drain rb hw n hn he hz⟩
  · have hbInit : (⟨some ⟨List.range 2000, 0, .eof⟩, none, List.replicate 1024 0, 0, 0, false⟩ : RingBuffer).buffer.length = 1024 := by
      rw [show (⟨some ⟨List.range 2000, 0, .eof⟩, none, List.replicate 1024 0, 0, 0, false⟩ : RingBuffer).buffer = List.replicate 1024 (0 : Nat) from rfl, List.length_replicate]
    have hwInit : (⟨some ⟨List.range 2000, 0, .eof⟩, none, List.replicate 1024 0, 0, 0, false⟩ : RingBuffer).WF := by
      refine ⟨?_, ?_, fun _ => rfl⟩
      · rw [hbInit]
        show (0 : Nat) < 1024
        omega
      · rw [hbInit]
        show (0 : Nat) < 1024
        omega
    have hcInit : (⟨some ⟨List.range 2000, 0, .eof⟩, none, List.replicate 1024 0, 0, 0, false⟩ : RingBuffer).unlockedCapacity = 1024 := by
      rw [RingBuffer.unlockedCapacity_eq, if_neg (by decide), if_neg (by decide), hbInit]
      show (1024 : Nat) - (0 - 0) = 1024
      omega
    have hLInit : (⟨some ⟨List.range 2000, 0, .eof⟩, none, List.replicate 1024 0, 0, 0, false⟩ : RingBuffer).unlockedLen = 0 := by
      rw [RingBuffer.unlockedLen_eq, hcInit, hbInit, Nat.sub_self]
    obtain ⟨rb0, heq0, hrd0, herr0, hhead0, hblen0, hwf0, hlen0, hcont0⟩ :=
      RingBuffer.prefill_read_data
        ⟨some ⟨List.range 2000, 0, .eof⟩, none, List.replicate 1024 0, 0, 0, false⟩
        hwInit ⟨List.range 2000, 0, .eof⟩ rfl rfl (by rw [hcInit]; omega)
        (by simp [List.range_eq_nil])
    have hb0 : rb0.buffer.length = 1024 := by rw [hblen0]; exact hbInit
    have hL0 : rb0.unlockedLen = 1024 := by
      rw [hlen0, hLInit, hcInit,
        show (⟨List.range 2000, 0, .eof⟩ : Source).grant 1024 = 1024 from rfl,
        show (⟨List.range 2000, 0, .eof⟩ : Source).data = List.range 2000 from rfl,
        List.length_take, List.length_range]
      omega
    have hrd0x : rb0.rd = some ⟨(List.range 2000).drop 1024, 0, .eof⟩ := by
      rw [hcInit] at hrd0
      exact hrd0
    have hc0 : rb0.unlockedCapacity = 0 := by
      have := RingBuffer.len_add_cap rb0 hwf0
      omega
    have hpre0 : rb0.prefillBuffer = .ok rb0 :=
      RingBuffer.prefill_noop_full rb0 herr0 _ hrd0x hc0
    obtain ⟨out1, rb2c, heqR1, houtl1, hwf2, hrd2, herr2, hbuf2, hlen2⟩ :=
      RingBuffer.Read_step rb0 hwf0 512 (by omega) rb0 hpre0 (by simp [hL0])
    have hl1 : out1.length = 512 := by omega
    have hb2 : rb2c.buffer.length = 1024 := by rw [hbuf2]; exact hb0
    have hL2 : rb2c.unlockedLen = 512 := by omega
    have hrd2x : rb2c.rd = some ⟨(List.range 2000).drop 1024, 0, .eof⟩ := by
      rw [hrd2]; exact hrd0x
    have herr2x : rb2c.rdErr = none := by rw [herr2]; exact herr0
    have hc2 : rb2c.unlockedCapacity = 512 := by
      have := RingBuffer.len_add_cap rb2c hwf2
      omega
    obtain ⟨rb3, heq3, hrd3, herr3, hhead3, hblen3, hwf3, hlen3, hcont3⟩ :=
      RingBuffer.prefill_read_data rb2c hwf2 ⟨(List.range 2000).drop 1024, 0, .eof⟩
        herr2x hrd2x (by omega) (List.length_pos.mp (by simp))
    have hb3 : rb3.buffer.length = 1024 := by rw [hblen3]; exact hb2
    have hL3 : rb3.unlockedLen = 1024 := by
      rw [hlen3, hL2, hc2,
        show (⟨(List.range 2000).drop 1024, 0, .eof⟩ : Source).grant 512 = 512 from rfl,
        show (⟨(List.range 2000).drop 1024, 0, .eof⟩ : Source).data = (List.range 2000).drop 1024 from rfl,
        List.length_take, List.length_drop, List.length_range]
      omega
    have hrd3x : rb3.rd = some ⟨((List.range 2000).drop 1024).drop 512, 0, .eof⟩ := by
      rw [hc2] at hrd3
      exact hrd3
    obtain ⟨out2, rb4c, heqR2, houtl2, hwf4, hrd4, herr4, hbuf4, hlen4⟩ :=
      RingBuffer.Read_step rb2c hwf2 512 (by omega) rb3 heq3 (by simp [hL3])
    have hl2 : out2.length = 512 := by omega
    have hb4 : rb4c.buffer.length = 1024 := by rw [hbuf4]; exact hb3
    have hL4 : rb4c.unlockedLen = 512 := by omega
    have hrd4x : rb4c.rd = some ⟨((List.range 2000).drop 1024).drop 512, 0, .eof⟩ := by
      rw [hrd4]; exact hrd3x
    have herr4x : rb4c.rdErr = none := by rw [herr4]; exact herr3
    have hc4 : rb4c.unlockedCapacity = 512 := by
      have := RingBuffer.len_add_cap rb4c hwf4
      omega
    obtain ⟨rb5, heq5, hrd5, herr5, hhead5, hblen5, hwf5, hlen5, hcont5⟩ :=
      RingBuffer.prefill_read_data rb4c hwf4
        ⟨((List.range 2000).drop 1024).drop 512, 0, .eof⟩
        herr4x hrd4x (by omega) (List.length_pos.mp (by simp))
    have hb5 : rb5.buffer.length = 1024 := by rw [hblen5]; exact hb4
    have hL5 : rb5.unlockedLen = 976 := by
      rw [hlen5, hL4, hc4,
        show (⟨((List.range 2000).drop 1024).drop 512, 0, .eof⟩ : Source).grant 512 = 512 from rfl,
        show (⟨((List.range 2000).drop 1024).drop 512, 0, .eof⟩ : Source).data = ((List.range 2000).drop 1024).drop 512 from rfl,
        List.length_take, List.length_drop, List.length_drop, List.length_range]
      omega
    have hdrop5 : (⟨((List.range 2000).drop 1024).drop 512, 0, .eof⟩ : Source).data.drop
        ((⟨((List.range 2000).drop 1024).drop 512, 0, .eof⟩ : Source).grant 512) = [] := by
      apply List.length_eq_zero.mp
      rw [show (⟨((List.range 2000).drop 1024).drop 512, 0, .eof⟩ : Source).grant 512 = 512 from rfl,
        show (⟨((List.range 2000).drop 1024).drop 512, 0, .eof⟩ : Source).data = ((List.range 2000).drop 1024).drop 512 from rfl]
      simp only [List.length_drop, List.length_range]
    have hrd5x : rb5.rd = some ⟨[], 0, .eof⟩ := by
      rw [hc4] at hrd5
      rw [hrd5, hdrop5]
    obtain ⟨out3, rb6c, heqR3, houtl3, hwf6, hrd6, herr6, hbuf6, hlen6⟩ :=
      RingBuffer.Read_step rb4c hwf4 512 (by omega) rb5 heq5 (by simp [hL5])
    have hl3 : out3.length = 512 := by omega
    have hb6 : rb6c.buffer.length = 1024 := by rw [hbuf6]; exact hb5
    have hL6 : rb6c.unlockedLen = 464 := by omega
    have hrd6x : rb6c.rd = some ⟨[], 0, .eof⟩ := by rw [hrd6]; exact hrd5x
    have herr6x : rb6c.rdErr = none := by rw [herr6]; exact herr5
    have hc6 : rb6c.unlockedCapacity = 560 := by
      have := RingBuffer.len_add_cap rb6c hwf6
      omega
    obtain ⟨rb7, heq7, hrd7, herr7, hhead7, hblen7, hwf7, hlen7, hcont7⟩ :=
      RingBuffer.prefill_eof rb6c hwf6 ⟨[], 0, .eof⟩ herr6x hrd6x (by omega) rfl rfl
        (by omega)
    have hL7 : rb7.unlockedLen = 464 := by omega
    obtain ⟨out4, rb8c, heqR4, houtl4, hwf8, hrd8, herr8, hbuf8, hlen8⟩ :=
      RingBuffer.Read_step rb6c hwf6 512 (by omega) rb7 heq7 (by simp [hL7])
    have hl4 : out4.length = 464 := by omega
    have herr8x : rb8c.rdErr = some .eof := by rw [herr8]; exact herr7
    have hL8 : rb8c.unlockedLen = 0 := by omega
    have heqR5 : rb8c.Read 512 = .ok ([], some .eof, rb8c) :=
      RingBuffer.Read_eof_empty rb8c hwf8 512 (by omega) herr8x hL8
    have heq0x : NewReaderSize ⟨List.range 2000, 0, .eof⟩ 1024 = .ok rb0 := by
      unfold NewReaderSize
      exact heq0
    exact ⟨rb0, rb2c, rb4c, rb6c, rb8c, out1, out2, out3, out4,
      heq0x, heqR1, hl1, heqR2, hl2, heqR3, hl3, heqR4, hl4, heqR5⟩

/-- C2 witness: with end-of-stream recorded and the capacity-2 ring
drained (head = tail = 1), a Read(1) returns zero bytes with the
end-of-stream status and leaves the state unchanged; the nonempty clause
is available at the same state for the buffered variant. -/
theorem C2_amended_witness :
    (⟨none, some .eof, [9, 8], 1, 1, false⟩ : RingBuffer).WF ∧
    ((⟨none, some .eof, [9, 8], 1, 1, false⟩ : RingBuffer).unlockedLen = 0 →
      (⟨none, some .eof, [9, 8], 1, 1, false⟩ : RingBuffer).Read 1
        = .ok ([], some .eof, ⟨none, some .eof, [9, 8], 1, 1, false⟩)) ∧
    ((⟨none, some .eof, [9, 8], 1, 1, false⟩ : RingBuffer).unlockedLen ≠ 0 →
      ∃ out rb2, (⟨none, some .eof, [9, 8], 1, 1, false⟩ : RingBuffer).Read 1
          = .ok (out, none, rb2) ∧
        out.length = min (⟨none, some .eof, [9, 8], 1, 1, false⟩ : RingBuffer).unlockedLen 1 ∧
        rb2.rdErr = some .eof ∧
        rb2.unlockedLen = (⟨none, some .eof, [9, 8], 1, 1, false⟩ : RingBuffer).unlockedLen
          - min (⟨none, some .eof, [9, 8], 1, 1, false⟩ : RingBuffer).unlockedLen 1) :=
  ⟨by decide, C2_amended.1 ⟨none, some .eof, [9, 8], 1, 1, false⟩ 1 (by decide) rfl
    (by decide)⟩


end RingModel
